import Mathlib

/-!
# ServerDrives (models/server_drives.go)

A shallow embedding of the generated model type `ServerDrives` and of its four
methods `Validate`, `ContextValidate`, `MarshalBinary` and `UnmarshalBinary`.

The two (de)serialisation methods delegate to `swag.WriteJSON` and
`swag.ReadJSON` of go-openapi/swag, which for a type without custom JSON
methods call `json.Marshal` and `json.Unmarshal` of Go's `encoding/json`.
Those library functions are embedded here as far as a struct of `int64`,
`string` and `bool` fields with `omitempty` tags exercises them:

* Go strings and byte slices are lists of bytes (`Nat` below 256), because a Go
  string may hold bytes that are not valid UTF-8;
* `int64` is `Int` restricted by `ServerDrives.WF` to the 64-bit range;
* the JSON scanner is the byte-at-a-time state machine of `scanner.go`; on top
  of its transitions the value tree is collected, and the decoder of
  `decode.go` is run on that tree.
-/

namespace Models

/-- A Go byte slice or string: a list of bytes. -/
abbrev Bytes := List Nat

/-- The bytes of an ASCII text. -/
def ascii (s : String) : Bytes := s.data.map Char.toNat

/-! ## unicode/utf8 -/

/-- The constant utf8.RuneError (U+FFFD). -/
def RuneError : Nat := 0xFFFD

/-- The constant utf8.RuneSelf: bytes below it are single-byte runes. -/
def RuneSelf : Nat := 0x80

/-- The table `first` of utf8 together with `acceptRanges`: for a lead byte of
a multi-byte sequence the sequence length and the accepted range of the second
byte; `none` for ASCII and for invalid lead bytes. -/
def first (p0 : Nat) : Option (Nat × Nat × Nat) :=
  if 0xC2 ≤ p0 ∧ p0 ≤ 0xDF then some (2, 0x80, 0xBF)
  else if p0 = 0xE0 then some (3, 0xA0, 0xBF)
  else if 0xE1 ≤ p0 ∧ p0 ≤ 0xEC then some (3, 0x80, 0xBF)
  else if p0 = 0xED then some (3, 0x80, 0x9F)
  else if 0xEE ≤ p0 ∧ p0 ≤ 0xEF then some (3, 0x80, 0xBF)
  else if p0 = 0xF0 then some (4, 0x90, 0xBF)
  else if 0xF1 ≤ p0 ∧ p0 ≤ 0xF3 then some (4, 0x80, 0xBF)
  else if p0 = 0xF4 then some (4, 0x80, 0x8F)
  else none

/-- The function utf8.DecodeRune: the first rune of `p` and its width in bytes;
`(RuneError, 1)` for an invalid encoding and `(RuneError, 0)` for no input.
The masks `p0&mask2` and shifts are written with `%` and `*`. -/
def DecodeRune (p : Bytes) : Nat × Nat :=
  match p with
  | [] => (RuneError, 0)
  | p0 :: _ =>
    if p0 < RuneSelf then (p0, 1)
    else
      match first p0 with
      | none => (RuneError, 1)
      | some (sz, lo, hi) =>
        if p.length < sz then (RuneError, 1)
        else
          let b1 := p.getD 1 0
          if b1 < lo ∨ hi < b1 then (RuneError, 1)
          else if sz ≤ 2 then ((p0 % 32) * 64 + b1 % 64, 2)
          else
            let b2 := p.getD 2 0
            if b2 < 0x80 ∨ 0xBF < b2 then (RuneError, 1)
            else if sz ≤ 3 then ((p0 % 16) * 4096 + (b1 % 64) * 64 + b2 % 64, 3)
            else
              let b3 := p.getD 3 0
              if b3 < 0x80 ∨ 0xBF < b3 then (RuneError, 1)
              else ((p0 % 8) * 262144 + (b1 % 64) * 4096 + (b2 % 64) * 64 + b3 % 64, 4)

/-- The function utf8.EncodeRune (utf8.AppendRune): the UTF-8 encoding of a
rune; surrogates and runes above U+10FFFF are encoded as U+FFFD. -/
def EncodeRune (r : Nat) : Bytes :=
  if r ≤ 0x7F then [r]
  else if r ≤ 0x7FF then [0xC0 + r / 64, 0x80 + r % 64]
  else if 0x10FFFF < r ∨ (0xD800 ≤ r ∧ r ≤ 0xDFFF) then [0xEF, 0xBF, 0xBD]
  else if r ≤ 0xFFFF then [0xE0 + r / 4096, 0x80 + (r / 64) % 64, 0x80 + r % 64]
  else [0xF0 + r / 262144, 0x80 + (r / 4096) % 64, 0x80 + (r / 64) % 64, 0x80 + r % 64]

/-- The loop of utf8.Valid: every decoding step yields a rune other than the
width-1 RuneError. The fuel bounds the number of runes. -/
def validLoop : Nat → Bytes → Bool
  | 0, p => p.isEmpty
  | fuel + 1, p =>
    match p with
    | [] => true
    | _ :: _ =>
      let (r, size) := DecodeRune p
      if r = RuneError ∧ size = 1 then false
      else validLoop fuel (p.drop size)

/-- The function utf8.Valid (utf8.ValidString). -/
def Valid (p : Bytes) : Bool := validLoop p.length p

/-! ## The record -/

/-- The struct ServerDrives with its ten fields, in declaration order. -/
structure ServerDrives where
  AvailableSpace : Int := 0
  DrivePath : Bytes := []
  Endpoint : Bytes := []
  Healing : Bool := false
  Model : Bytes := []
  RootDisk : Bool := false
  State : Bytes := []
  TotalSpace : Int := 0
  UsedSpace : Int := 0
  UUID : Bytes := []
  deriving DecidableEq, Repr

/-- The zero value of the struct: what `var res ServerDrives` declares. -/
def ServerDrives.zero : ServerDrives := {}

/-- A value is an int64 when it lies in the 64-bit two's complement range. -/
def isInt64 (n : Int) : Prop := -(2 : Int) ^ 63 ≤ n ∧ n < (2 : Int) ^ 63

instance (n : Int) : Decidable (isInt64 n) := by
  unfold isInt64; infer_instance

/-- A list of bytes is a Go string when every element is below 256. -/
def isString (s : Bytes) : Prop := ∀ b ∈ s, b < 256

instance (s : Bytes) : Decidable (isString s) := by
  unfold isString; infer_instance

/-- The records that are Go values: integers are int64, strings are bytes. -/
structure ServerDrives.WF (m : ServerDrives) : Prop where
  availableSpace : isInt64 m.AvailableSpace
  totalSpace : isInt64 m.TotalSpace
  usedSpace : isInt64 m.UsedSpace
  drivePath : isString m.DrivePath
  endpoint : isString m.Endpoint
  model : isString m.Model
  state : isString m.State
  uuid : isString m.UUID

/-- The kinds of the fields (reflect.Kind). -/
inductive Kind
  | Int64
  | String
  | Bool
  deriving DecidableEq, Repr

/-- The ten fields of the struct, as the reflection of encoding/json lists
them (typeFields): in declaration order. -/
inductive Field
  | AvailableSpace
  | DrivePath
  | Endpoint
  | Healing
  | Model
  | RootDisk
  | State
  | TotalSpace
  | UsedSpace
  | UUID
  deriving DecidableEq, Repr

/-- The JSON key of a field, from its struct tag. -/
def Field.name : Field → Bytes
  | .AvailableSpace => ascii "availableSpace"
  | .DrivePath => ascii "drivePath"
  | .Endpoint => ascii "endpoint"
  | .Healing => ascii "healing"
  | .Model => ascii "model"
  | .RootDisk => ascii "rootDisk"
  | .State => ascii "state"
  | .TotalSpace => ascii "totalSpace"
  | .UsedSpace => ascii "usedSpace"
  | .UUID => ascii "uuid"

/-- The Go kind of a field. -/
def Field.kind : Field → Kind
  | .AvailableSpace => .Int64
  | .DrivePath => .String
  | .Endpoint => .String
  | .Healing => .Bool
  | .Model => .String
  | .RootDisk => .Bool
  | .State => .String
  | .TotalSpace => .Int64
  | .UsedSpace => .Int64
  | .UUID => .String

/-- The field list of the struct encoder and decoder. -/
def fields : List Field :=
  [.AvailableSpace, .DrivePath, .Endpoint, .Healing, .Model, .RootDisk, .State,
   .TotalSpace, .UsedSpace, .UUID]

/-- A field value (reflect.Value of one of the three kinds). -/
inductive Value
  | int (n : Int)
  | str (s : Bytes)
  | bool (b : Bool)
  deriving DecidableEq, Repr

/-- The zero value of a kind. -/
def Kind.zero : Kind → Value
  | .Int64 => .int 0
  | .String => .str []
  | .Bool => .bool false

/-- Reading a field. -/
def ServerDrives.get (m : ServerDrives) : Field → Value
  | .AvailableSpace => .int m.AvailableSpace
  | .DrivePath => .str m.DrivePath
  | .Endpoint => .str m.Endpoint
  | .Healing => .bool m.Healing
  | .Model => .str m.Model
  | .RootDisk => .bool m.RootDisk
  | .State => .str m.State
  | .TotalSpace => .int m.TotalSpace
  | .UsedSpace => .int m.UsedSpace
  | .UUID => .str m.UUID

/-- Writing a field (SetInt, SetString, SetBool); a value of another kind is
never stored by the decoder and leaves the record as it is. -/
def ServerDrives.set (m : ServerDrives) : Field → Value → ServerDrives
  | .AvailableSpace, .int n => { m with AvailableSpace := n }
  | .DrivePath, .str s => { m with DrivePath := s }
  | .Endpoint, .str s => { m with Endpoint := s }
  | .Healing, .bool b => { m with Healing := b }
  | .Model, .str s => { m with Model := s }
  | .RootDisk, .bool b => { m with RootDisk := b }
  | .State, .str s => { m with State := s }
  | .TotalSpace, .int n => { m with TotalSpace := n }
  | .UsedSpace, .int n => { m with UsedSpace := n }
  | .UUID, .str s => { m with UUID := s }
  | _, _ => m

/-! ## strconv -/

/-- The digit loop of strconv.formatBits in base 10: the decimal digits of `u`,
most significant first. The fuel bounds the number of digits. -/
def formatBits : Nat → Nat → Bytes
  | 0, _ => []
  | fuel + 1, u =>
    if u < 10 then [0x30 + u] else formatBits fuel (u / 10) ++ [0x30 + u % 10]

/-- The function strconv.FormatUint in base 10. -/
def FormatUint (u : Nat) : Bytes := formatBits (u + 1) u

/-- The function strconv.AppendInt in base 10: a minus sign and the digits of
the magnitude for a negative number. -/
def FormatInt (i : Int) : Bytes :=
  if i < 0 then 0x2D :: FormatUint i.natAbs else FormatUint i.natAbs

/-- The digit loop of strconv.ParseUint in base 10: the number read so far and
the next digits; any other byte is a syntax error. -/
def parseDigits (acc : Nat) : Bytes → Option Nat
  | [] => some acc
  | d :: rest =>
    if 0x30 ≤ d ∧ d ≤ 0x39 then parseDigits (acc * 10 + (d - 0x30)) rest else none

/-- The function strconv.ParseUint in base 10; the empty text is a syntax
error. The value is not truncated here: ParseInt compares it with its cutoff,
which an overflowing value always exceeds. -/
def ParseUint (s : Bytes) : Option Nat :=
  match s with
  | [] => none
  | _ :: _ => parseDigits 0 s

/-- The function strconv.ParseInt(s, 10, 64): an optional sign, the digits, and
the range check against the cutoff 2^63; `none` for a syntax or range error. -/
def ParseInt (s : Bytes) : Option Int :=
  match s with
  | [] => none
  | c :: rest =>
    let neg := c = 0x2D
    let digits := if c = 0x2B ∨ c = 0x2D then rest else s
    match ParseUint digits with
    | none => none
    | some un =>
      if ¬ neg ∧ un ≥ 2 ^ 63 then none
      else if neg ∧ un > 2 ^ 63 then none
      else some (if neg then -(un : Int) else (un : Int))

/-! ## encoding/json: the encoder -/

/-- The table `hex` of encoding/json: the lower-case hexadecimal digit. -/
def hex (n : Nat) : Nat := if n < 10 then 0x30 + n else 0x57 + n

/-- The table htmlSafeSet: the ASCII bytes written without escaping when
escapeHTML is on, that is all from 0x20 on but the double quote, the ampersand,
the angle brackets and the backslash. -/
def htmlSafeSet (b : Nat) : Bool :=
  decide (0x20 ≤ b ∧ b < 0x80 ∧ b ≠ 0x22 ∧ b ≠ 0x26 ∧ b ≠ 0x3C ∧ b ≠ 0x3E ∧ b ≠ 0x5C)

/-- The loop of encodeState.string with escapeHTML on (as json.Marshal sets
it), without the surrounding quotes: safe ASCII bytes and valid multi-byte
runes are copied, the double quote and the backslash get a backslash, line
feed, carriage return and tab are written as n, r and t after a backslash,
other unsafe ASCII bytes as a u00XX escape, an invalid byte as the escape of
U+FFFD, and U+2028 and U+2029 as their escapes. (From Go 1.22 on, backspace and
form feed are written as b and f after a backslash instead of a u00XX escape;
unquoteBytes reads both forms as the same byte.) The fuel bounds the number
of runes. -/
def stringLoop : Nat → Bytes → Bytes
  | 0, _ => []
  | fuel + 1, s =>
    match s with
    | [] => []
    | b :: rest =>
      if b < RuneSelf then
        if htmlSafeSet b then b :: stringLoop fuel rest
        else if b = 0x5C ∨ b = 0x22 then [0x5C, b] ++ stringLoop fuel rest
        else if b = 0x0A then [0x5C, 0x6E] ++ stringLoop fuel rest
        else if b = 0x0D then [0x5C, 0x72] ++ stringLoop fuel rest
        else if b = 0x09 then [0x5C, 0x74] ++ stringLoop fuel rest
        else [0x5C, 0x75, 0x30, 0x30, hex (b / 16), hex (b % 16)] ++ stringLoop fuel rest
      else
        let (c, size) := DecodeRune s
        if c = RuneError ∧ size = 1 then
          [0x5C, 0x75, 0x66, 0x66, 0x66, 0x64] ++ stringLoop fuel (s.drop size)
        else if c = 0x2028 ∨ c = 0x2029 then
          [0x5C, 0x75, 0x32, 0x30, 0x32, hex (c % 16)] ++ stringLoop fuel (s.drop size)
        else s.take size ++ stringLoop fuel (s.drop size)

/-- The method encodeState.string: a JSON string literal for a Go string. -/
def encodeString (s : Bytes) : Bytes := [0x22] ++ stringLoop s.length s ++ [0x22]

/-- The function isEmptyValue for the three kinds: zero, the empty string,
false. -/
def isEmptyValue : Value → Bool
  | .int n => decide (n = 0)
  | .str s => s.isEmpty
  | .bool b => !b

/-- The field encoders intEncoder, stringEncoder and boolEncoder. -/
def encodeValue : Value → Bytes
  | .int n => FormatInt n
  | .str s => encodeString s
  | .bool b => if b then ascii "true" else ascii "false"

/-- The precomputed nameEscHTML of a field: the quoted key and a colon. The
ten keys hold only ASCII letters, which HTMLEscape leaves alone. -/
def nameEscHTML (f : Field) : Bytes := [0x22] ++ f.name ++ [0x22, 0x3A]

/-- One round of the field loop of structEncoder.encode: a field with an empty
value is skipped (all ten carry omitempty); otherwise the separator `next`,
the key and the value are written and the separator becomes a comma. -/
def encodeField (m : ServerDrives) (st : Bytes × Nat) (f : Field) : Bytes × Nat :=
  if isEmptyValue (m.get f) then st
  else (st.1 ++ [st.2] ++ nameEscHTML f ++ encodeValue (m.get f), 0x2C)

/-- The method structEncoder.encode. -/
def structEncode (m : ServerDrives) : Bytes :=
  let st := fields.foldl (encodeField m) ([], 0x7B)
  if st.2 = 0x7B then st.1 ++ [0x7B, 0x7D] else st.1 ++ [0x7D]

/-- The errors of encoding/json that the two methods can surface: SyntaxError
from the scanner, UnmarshalTypeError from the decoder, and the decoder's panic
on a literal the scanner accepted but unquoteBytes rejects (phasePanicMsg).
Positions and type names carried by the Go values are left out. -/
inductive JSONError
  | SyntaxError
  | UnmarshalTypeError
  | phaseError
  deriving DecidableEq, Repr

/-- The function json.Marshal on a non-nil pointer to a ServerDrives: the
bytes of the struct encoder. An error of json.Marshal (returned with a nil
slice) comes from an unsupported type or value or from a Marshaler method;
the encoders of int64, string and bool fields have no such case, so the error
is nil. -/
def Marshal (m : ServerDrives) : Option Bytes × Option JSONError :=
  (some (structEncode m), none)

/-- The function swag.WriteJSON: the type has neither MarshalEasyJSON nor
MarshalJSON, so it is json.Marshal. -/
def WriteJSON (m : ServerDrives) : Option Bytes × Option JSONError := Marshal m


/-! ## encoding/json: the scanner -/

/-- A JSON value as the scanner delimits it. A number carries the bytes of its
literal, a string the bytes between its quotes, still escaped; an object
carries its members in input order, duplicates included. -/
inductive JSON
  | null
  | bool (b : Bool)
  | num (lit : Bytes)
  | str (lit : Bytes)
  | arr (xs : List JSON)
  | obj (ms : List (Bytes × JSON))
  deriving Repr

/-- An entry of scanner.parseState, with the part of the container read so
far: parseObjectKey, parseObjectValue (with the key of the member being read)
and parseArrayValue. -/
inductive Frame
  | objectKey (ms : List (Bytes × JSON))
  | objectValue (ms : List (Bytes × JSON)) (key : Bytes)
  | arrayValue (xs : List JSON)
  deriving Repr

/-- The state functions of scanner.go that scanner.step ranges over. -/
inductive Step
  | BeginValueOrEmpty
  | BeginValue
  | BeginStringOrEmpty
  | BeginString
  | EndValue
  | EndTop
  | InString
  | InStringEsc
  | InStringEscU
  | InStringEscU1
  | InStringEscU12
  | InStringEscU123
  | Neg
  | S1
  | S0
  | Dot
  | Dot0
  | E
  | ESign
  | E0
  | T
  | Tr
  | Tru
  | F
  | Fa
  | Fal
  | Fals
  | N
  | Nu
  | Nul
  | Error
  deriving DecidableEq, Repr

/-- The scanner: the state function, the stack of open containers, the bytes
of the literal being read, the value completed last, and the endTop flag. A
scanner with an error is one whose step is Error. -/
structure Scanner where
  step : Step
  parseState : List Frame
  lit : Bytes
  val : Option JSON
  endTop : Bool
  deriving Repr

/-- The constant maxNestingDepth. -/
def maxNestingDepth : Nat := 10000

/-- The function isSpace: space, tab, carriage return, line feed. -/
def isSpace (c : Nat) : Bool := decide (c = 0x20 ∨ c = 0x09 ∨ c = 0x0D ∨ c = 0x0A)

/-- The method scanner.error: the scanner enters stateError. -/
def Scanner.error (s : Scanner) : Scanner := { s with step := .Error }

/-- The method scanner.reset. -/
def Scanner.reset : Scanner :=
  { step := .BeginValue, parseState := [], lit := [], val := none, endTop := false }

/-- The method scanner.pushParseState: the new entry is pushed and the step
set, unless the stack then exceeds maxNestingDepth. -/
def Scanner.pushParseState (s : Scanner) (f : Frame) (next : Step) : Scanner :=
  if (f :: s.parseState).length ≤ maxNestingDepth then
    { s with parseState := f :: s.parseState, step := next }
  else s.error

/-- The method scanner.popParseState, called when a container closes: the top
entry is dropped, the closed container `v` is the completed value, and the
step is stateEndTop when the stack is empty, stateEndValue otherwise. -/
def Scanner.popParseState (s : Scanner) (v : JSON) : Scanner :=
  match s.parseState.tail with
  | [] => { s with parseState := [], val := some v, step := .EndTop, endTop := true }
  | f :: rest => { s with parseState := f :: rest, val := some v, step := .EndValue }

/-- The function stateEndTop: only space may follow the top-level value. -/
def stateEndTop (s : Scanner) (c : Nat) : Scanner :=
  if isSpace c then s else s.error

/-- The function stateEndValue: the state after a value has been completed
(it is `s.val`). At top level the scan is over; after an object key a colon
must follow; after a member value a comma or the closing brace, and the member
joins the object; after an array element a comma or the closing bracket. -/
def stateEndValue (s : Scanner) (c : Nat) : Scanner :=
  match s.parseState with
  | [] => stateEndTop { s with step := .EndTop, endTop := true } c
  | ps :: rest =>
    if isSpace c then { s with step := .EndValue }
    else
      match ps, s.val with
      | .objectKey ms, some (.str key) =>
        if c = 0x3A then { s with parseState := .objectValue ms key :: rest, step := .BeginValue }
        else s.error
      | .objectValue ms key, some v =>
        if c = 0x2C then
          { s with parseState := .objectKey (ms ++ [(key, v)]) :: rest, step := .BeginString }
        else if c = 0x7D then s.popParseState (.obj (ms ++ [(key, v)]))
        else s.error
      | .arrayValue xs, some v =>
        if c = 0x2C then { s with parseState := .arrayValue (xs ++ [v]) :: rest, step := .BeginValue }
        else if c = 0x5D then s.popParseState (.arr (xs ++ [v]))
        else s.error
      | _, _ => s.error

/-- The function stateBeginValue: the state at the beginning of a value. -/
def stateBeginValue (s : Scanner) (c : Nat) : Scanner :=
  if isSpace c then s
  else if c = 0x7B then s.pushParseState (.objectKey []) .BeginStringOrEmpty
  else if c = 0x5B then s.pushParseState (.arrayValue []) .BeginValueOrEmpty
  else if c = 0x22 then { s with step := .InString, lit := [] }
  else if c = 0x2D then { s with step := .Neg, lit := [c] }
  else if c = 0x30 then { s with step := .S0, lit := [c] }
  else if c = 0x74 then { s with step := .T }
  else if c = 0x66 then { s with step := .F }
  else if c = 0x6E then { s with step := .N }
  else if 0x31 ≤ c ∧ c ≤ 0x39 then { s with step := .S1, lit := [c] }
  else s.error

/-- The function stateBeginValueOrEmpty: the state after an opening bracket. -/
def stateBeginValueOrEmpty (s : Scanner) (c : Nat) : Scanner :=
  if isSpace c then s
  else if c = 0x5D then
    match s.parseState with
    | .arrayValue xs :: _ => s.popParseState (.arr xs)
    | _ => s.error
  else stateBeginValue s c

/-- The function stateBeginString: the state where an object key must begin. -/
def stateBeginString (s : Scanner) (c : Nat) : Scanner :=
  if isSpace c then s
  else if c = 0x22 then { s with step := .InString, lit := [] }
  else s.error

/-- The function stateBeginStringOrEmpty: the state after an opening brace. -/
def stateBeginStringOrEmpty (s : Scanner) (c : Nat) : Scanner :=
  if isSpace c then s
  else if c = 0x7D then
    match s.parseState with
    | .objectKey ms :: _ => s.popParseState (.obj ms)
    | _ => s.error
  else stateBeginString s c

/-- The function stateInString: the closing quote completes the string; a
backslash begins an escape; control characters are errors; any other byte
belongs to the string. -/
def stateInString (s : Scanner) (c : Nat) : Scanner :=
  if c = 0x22 then { s with step := .EndValue, val := some (.str s.lit) }
  else if c = 0x5C then { s with step := .InStringEsc, lit := s.lit ++ [c] }
  else if c < 0x20 then s.error
  else { s with lit := s.lit ++ [c] }

/-- The function stateInStringEsc: the byte after a backslash. -/
def stateInStringEsc (s : Scanner) (c : Nat) : Scanner :=
  if c = 0x62 ∨ c = 0x66 ∨ c = 0x6E ∨ c = 0x72 ∨ c = 0x74 ∨ c = 0x5C ∨ c = 0x2F ∨ c = 0x22 then
    { s with step := .InString, lit := s.lit ++ [c] }
  else if c = 0x75 then { s with step := .InStringEscU, lit := s.lit ++ [c] }
  else s.error

/-- A hexadecimal digit, in either case. -/
def isHex (c : Nat) : Bool :=
  decide ((0x30 ≤ c ∧ c ≤ 0x39) ∨ (0x61 ≤ c ∧ c ≤ 0x66) ∨ (0x41 ≤ c ∧ c ≤ 0x46))

/-- The functions stateInStringEscU to stateInStringEscU123: one hexadecimal
digit of a u escape, then on to `next`. -/
def stateInStringEscHex (next : Step) (s : Scanner) (c : Nat) : Scanner :=
  if isHex c then { s with step := next, lit := s.lit ++ [c] } else s.error

/-- A decimal digit. -/
def isDigit (c : Nat) : Bool := decide (0x30 ≤ c ∧ c ≤ 0x39)

/-- The end of a number literal: the literal is the completed value and the
byte is handled by stateEndValue. -/
def endNumber (s : Scanner) (c : Nat) : Scanner :=
  stateEndValue { s with val := some (.num s.lit) } c

/-- The function stateNeg: after the minus sign of a number. -/
def stateNeg (s : Scanner) (c : Nat) : Scanner :=
  if c = 0x30 then { s with step := .S0, lit := s.lit ++ [c] }
  else if 0x31 ≤ c ∧ c ≤ 0x39 then { s with step := .S1, lit := s.lit ++ [c] }
  else s.error

/-- The function state0: after a leading zero, or after the integer part. -/
def state0 (s : Scanner) (c : Nat) : Scanner :=
  if c = 0x2E then { s with step := .Dot, lit := s.lit ++ [c] }
  else if c = 0x65 ∨ c = 0x45 then { s with step := .E, lit := s.lit ++ [c] }
  else endNumber s c

/-- The function state1: within the integer part of a number. -/
def state1 (s : Scanner) (c : Nat) : Scanner :=
  if isDigit c then { s with step := .S1, lit := s.lit ++ [c] } else state0 s c

/-- The function stateDot: after the decimal point. -/
def stateDot (s : Scanner) (c : Nat) : Scanner :=
  if isDigit c then { s with step := .Dot0, lit := s.lit ++ [c] } else s.error

/-- The function stateDot0: within the fraction. -/
def stateDot0 (s : Scanner) (c : Nat) : Scanner :=
  if isDigit c then { s with lit := s.lit ++ [c] }
  else if c = 0x65 ∨ c = 0x45 then { s with step := .E, lit := s.lit ++ [c] }
  else endNumber s c

/-- The function stateESign: after the sign of the exponent. -/
def stateESign (s : Scanner) (c : Nat) : Scanner :=
  if isDigit c then { s with step := .E0, lit := s.lit ++ [c] } else s.error

/-- The function stateE: after the exponent mark. -/
def stateE (s : Scanner) (c : Nat) : Scanner :=
  if c = 0x2B ∨ c = 0x2D then { s with step := .ESign, lit := s.lit ++ [c] }
  else stateESign s c

/-- The function stateE0: within the exponent. -/
def stateE0 (s : Scanner) (c : Nat) : Scanner :=
  if isDigit c then { s with lit := s.lit ++ [c] } else endNumber s c

/-- The functions stateT to stateNul other than the last letter of a word:
the byte must be `want`. -/
def stateWord (want : Nat) (next : Step) (s : Scanner) (c : Nat) : Scanner :=
  if c = want then { s with step := next } else s.error

/-- The functions stateTru, stateFals and stateNul: the last letter completes
the literal `v`. -/
def stateWordEnd (want : Nat) (v : JSON) (s : Scanner) (c : Nat) : Scanner :=
  if c = want then { s with step := .EndValue, val := some v } else s.error

/-- The call `s.step(s, c)`: the state function for the current step. -/
def Scanner.next (s : Scanner) (c : Nat) : Scanner :=
  match s.step with
  | .BeginValueOrEmpty => stateBeginValueOrEmpty s c
  | .BeginValue => stateBeginValue s c
  | .BeginStringOrEmpty => stateBeginStringOrEmpty s c
  | .BeginString => stateBeginString s c
  | .EndValue => stateEndValue s c
  | .EndTop => stateEndTop s c
  | .InString => stateInString s c
  | .InStringEsc => stateInStringEsc s c
  | .InStringEscU => stateInStringEscHex .InStringEscU1 s c
  | .InStringEscU1 => stateInStringEscHex .InStringEscU12 s c
  | .InStringEscU12 => stateInStringEscHex .InStringEscU123 s c
  | .InStringEscU123 => stateInStringEscHex .InString s c
  | .Neg => stateNeg s c
  | .S1 => state1 s c
  | .S0 => state0 s c
  | .Dot => stateDot s c
  | .Dot0 => stateDot0 s c
  | .E => stateE s c
  | .ESign => stateESign s c
  | .E0 => stateE0 s c
  | .T => stateWord 0x72 .Tr s c
  | .Tr => stateWord 0x75 .Tru s c
  | .Tru => stateWordEnd 0x65 (.bool true) s c
  | .F => stateWord 0x61 .Fa s c
  | .Fa => stateWord 0x6C .Fal s c
  | .Fal => stateWord 0x73 .Fals s c
  | .Fals => stateWordEnd 0x65 (.bool false) s c
  | .N => stateWord 0x75 .Nu s c
  | .Nu => stateWord 0x6C .Nul s c
  | .Nul => stateWordEnd 0x6C .null s c
  | .Error => s

/-- The loop of checkValid: every byte is given to the scanner. Once in
stateError the scanner stays there, which is where checkValid returns. -/
def Scanner.run (s : Scanner) (data : Bytes) : Scanner := data.foldl Scanner.next s

/-- The method scanner.eof: at the end of the input the scanner must have
completed the top-level value, if need be after one more space, which ends a
top-level number. -/
def Scanner.eof (s : Scanner) : Option Scanner :=
  if s.step = .Error then none
  else if s.endTop then some s
  else
    let t := s.next 0x20
    if t.endTop ∧ t.step ≠ .Error then some t else none

/-- The function checkValid, returning the value scanned: `none` is the
SyntaxError. -/
def checkValid (data : Bytes) : Option JSON :=
  match (Scanner.reset.run data).eof with
  | none => none
  | some s => s.val

/-! ## encoding/json: the decoder -/

/-- The value of a hexadecimal digit, `none` for any other byte. -/
def hexVal (c : Nat) : Option Nat :=
  if 0x30 ≤ c ∧ c ≤ 0x39 then some (c - 0x30)
  else if 0x61 ≤ c ∧ c ≤ 0x66 then some (c - 0x61 + 10)
  else if 0x41 ≤ c ∧ c ≤ 0x46 then some (c - 0x41 + 10)
  else none

/-- The function getu4: the number written by a u escape at the beginning of
`s`, `none` (Go: -1) when `s` does not begin with one. -/
def getu4 (s : Bytes) : Option Nat :=
  if s.length < 6 ∨ s.getD 0 0 ≠ 0x5C ∨ s.getD 1 0 ≠ 0x75 then none
  else
    match hexVal (s.getD 2 0), hexVal (s.getD 3 0), hexVal (s.getD 4 0), hexVal (s.getD 5 0) with
    | some a, some b, some c, some d => some (((a * 16 + b) * 16 + c) * 16 + d)
    | _, _, _, _ => none

/-- The function utf16.DecodeRune on the results of two getu4 calls: the rune
of a surrogate pair, U+FFFD when the two do not form a pair. -/
def utf16DecodeRune (r1 : Nat) (r2 : Option Nat) : Nat :=
  match r2 with
  | none => 0xFFFD
  | some r2 =>
    if 0xD800 ≤ r1 ∧ r1 < 0xDC00 ∧ 0xDC00 ≤ r2 ∧ r2 < 0xE000 then
      (r1 - 0xD800) * 1024 + (r2 - 0xDC00) + 0x10000
    else 0xFFFD

/-- The loop of unquoteBytes over the bytes between the quotes: escapes are
replaced by what they stand for (a u escape by the UTF-8 encoding of its rune,
two of them forming a surrogate pair by the encoding of the pair), ASCII bytes
are copied, other bytes are decoded and encoded again, which turns an invalid
byte into U+FFFD. `none` is the result `ok = false`. Go first looks for a
prefix that needs no change and returns the input itself when that is all of
it; this loop gives the same bytes. The fuel bounds the number of steps. -/
def unquoteLoop : Nat → Bytes → Option Bytes
  | 0, s => if s.isEmpty then some [] else none
  | fuel + 1, s =>
    match s with
    | [] => some []
    | c :: rest =>
      if c = 0x5C then
        match rest with
        | [] => none
        | e :: rest2 =>
          if e = 0x22 ∨ e = 0x5C ∨ e = 0x2F ∨ e = 0x27 then
            (unquoteLoop fuel rest2).map (fun t => e :: t)
          else if e = 0x62 then (unquoteLoop fuel rest2).map (fun t => 0x08 :: t)
          else if e = 0x66 then (unquoteLoop fuel rest2).map (fun t => 0x0C :: t)
          else if e = 0x6E then (unquoteLoop fuel rest2).map (fun t => 0x0A :: t)
          else if e = 0x72 then (unquoteLoop fuel rest2).map (fun t => 0x0D :: t)
          else if e = 0x74 then (unquoteLoop fuel rest2).map (fun t => 0x09 :: t)
          else if e = 0x75 then
            match getu4 s with
            | none => none
            | some rr =>
              if 0xD800 ≤ rr ∧ rr < 0xE000 then
                let dec := utf16DecodeRune rr (getu4 (s.drop 6))
                if dec ≠ 0xFFFD then
                  (unquoteLoop fuel (s.drop 12)).map (fun t => EncodeRune dec ++ t)
                else (unquoteLoop fuel (s.drop 6)).map (fun t => EncodeRune 0xFFFD ++ t)
              else (unquoteLoop fuel (s.drop 6)).map (fun t => EncodeRune rr ++ t)
          else none
      else if c = 0x22 ∨ c < 0x20 then none
      else if c < RuneSelf then (unquoteLoop fuel rest).map (fun t => c :: t)
      else
        let (rr, size) := DecodeRune s
        (unquoteLoop fuel (s.drop size)).map (fun t => EncodeRune rr ++ t)

/-- The function unquoteBytes, on the bytes between the quotes of a string
literal. -/
def unquoteBytes (s : Bytes) : Option Bytes := unquoteLoop s.length s

/-- The function foldRune on a rune outside ASCII: the least rune of its orbit
under unicode.SimpleFold. The only such runes with an ASCII letter in their
orbit are U+017F (long s) and U+212A (Kelvin sign). Any other rune folds to a
rune outside ASCII; it stands for itself here, which decides a comparison with
the folded ASCII names of the fields the same way. -/
def foldRune (r : Nat) : Nat :=
  if r = 0x17F then 0x53 else if r = 0x212A then 0x4B else r

/-- The loop of appendFoldedName: ASCII letters become upper case, other runes
are folded. The fuel bounds the number of runes. -/
def foldNameLoop : Nat → Bytes → Bytes
  | 0, _ => []
  | fuel + 1, s =>
    match s with
    | [] => []
    | c :: rest =>
      if c < RuneSelf then
        (if 0x61 ≤ c ∧ c ≤ 0x7A then c - 0x20 else c) :: foldNameLoop fuel rest
      else
        let (r, n) := DecodeRune s
        EncodeRune (foldRune r) ++ foldNameLoop fuel (s.drop n)

/-- The function foldName: the key under which a name is found without regard
to case. -/
def foldName (s : Bytes) : Bytes := foldNameLoop s.length s

/-- The field a JSON key selects in decodeState.object: the field with exactly
that name, else the first field whose name equals the key without regard to
case, else none. (Go 1.21 on compares folded names; earlier versions use the
equalFold functions of fold.go, which decide the same.) -/
def lookupField (key : Bytes) : Option Field :=
  match fields.find? (fun f => decide (f.name = key)) with
  | some f => some f
  | none => fields.find? (fun f => decide (foldName f.name = foldName key))

/-- The decoder state: the struct being filled and the first error saved. -/
structure decodeState where
  res : ServerDrives
  savedError : Option JSONError
  deriving DecidableEq, Repr

/-- The method decodeState.saveError: only the first error is kept. -/
def decodeState.saveError (d : decodeState) (e : JSONError) : decodeState :=
  match d.savedError with
  | none => { d with savedError := some e }
  | some _ => d

/-- Decoding a JSON value into the field `f` (decodeState.value on the field:
literalStore for a literal, decodeState.object and decodeState.array for a
container). null leaves the field as it is; true and false are stored into a
bool field; a string is unquoted and stored into a string field; a number is
stored into an int64 field when ParseInt accepts its literal; everything else
saves an UnmarshalTypeError and leaves the field as it is. -/
def storeField (f : Field) (v : JSON) (d : decodeState) : decodeState :=
  match v with
  | .null => d
  | .bool b =>
    match f.kind with
    | .Bool => { d with res := d.res.set f (.bool b) }
    | _ => d.saveError .UnmarshalTypeError
  | .str lit =>
    match unquoteBytes lit with
    | none => d.saveError .phaseError
    | some s =>
      match f.kind with
      | .String => { d with res := d.res.set f (.str s) }
      | _ => d.saveError .UnmarshalTypeError
  | .num lit =>
    match f.kind with
    | .Int64 =>
      match ParseInt lit with
      | some n => { d with res := d.res.set f (.int n) }
      | none => d.saveError .UnmarshalTypeError
    | _ => d.saveError .UnmarshalTypeError
  | .arr _ => d.saveError .UnmarshalTypeError
  | .obj _ => d.saveError .UnmarshalTypeError

/-- One round of the member loop of decodeState.object: the key is unquoted and
looked up; the value of a key that selects no field is skipped. -/
def objectMember (d : decodeState) (m : Bytes × JSON) : decodeState :=
  match unquoteBytes m.1 with
  | none => d.saveError .phaseError
  | some key =>
    match lookupField key with
    | none => d
    | some f => storeField f m.2 d

/-- The method decodeState.object on the struct: the members in input order. -/
def decodeState.object (d : decodeState) (ms : List (Bytes × JSON)) : decodeState :=
  ms.foldl objectMember d

/-- The method decodeState.value on the pointer to the struct: an object is
decoded member by member, null is ignored, and any other value saves an
UnmarshalTypeError. -/
def decodeState.value (d : decodeState) (v : JSON) : decodeState :=
  match v with
  | .obj ms => d.object ms
  | .null => d
  | .str lit =>
    match unquoteBytes lit with
    | none => d.saveError .phaseError
    | some _ => d.saveError .UnmarshalTypeError
  | _ => d.saveError .UnmarshalTypeError

/-- The function json.Unmarshal into a pointer to `v`: the input is checked by
the scanner first, and a SyntaxError leaves `v` as it is; otherwise the value
is decoded into `v` and the saved error, if any, returned. The result is `v`
after the call and the error. -/
def Unmarshal (data : Bytes) (v : ServerDrives) : ServerDrives × Option JSONError :=
  match checkValid data with
  | none => (v, some .SyntaxError)
  | some j =>
    let d := decodeState.value { res := v, savedError := none } j
    (d.res, d.savedError)

/-- The call bytes.Trim(data, "\x00"): NUL bytes are cut off both ends. -/
def trimNUL (data : Bytes) : Bytes :=
  ((data.dropWhile (fun b => decide (b = 0))).reverse.dropWhile (fun b => decide (b = 0))).reverse

/-- The function swag.ReadJSON: the type has neither UnmarshalEasyJSON nor
UnmarshalJSON, so it is json.Unmarshal on the trimmed input. -/
def ReadJSON (data : Bytes) (value : ServerDrives) : ServerDrives × Option JSONError :=
  Unmarshal (trimNUL data) value

/-! ## The methods of ServerDrives -/

/-- The method Validate: returns nil. The receiver is a pointer (`none` is
nil); what it points to after the call is returned with the error. -/
def Validate {Registry : Type} (m : Option ServerDrives) (_formats : Registry) :
    Option ServerDrives × Option JSONError :=
  (m, none)

/-- The method ContextValidate: returns nil. -/
def ContextValidate {Context Registry : Type} (m : Option ServerDrives) (_ctx : Context)
    (_formats : Registry) : Option ServerDrives × Option JSONError :=
  (m, none)

/-- The body of the method MarshalBinary, with the function it delegates to
as a parameter. The receiver is a pointer: `none` is the nil pointer, for
which nil and no error are returned; otherwise the slice and the error of
`writeJSON` are returned as they are. The first component is the returned
slice, `none` for the nil slice. -/
def MarshalBinaryWith (writeJSON : ServerDrives → Option Bytes × Option JSONError)
    (m : Option ServerDrives) : Option Bytes × Option JSONError :=
  match m with
  | none => (none, none)
  | some r => writeJSON r

/-- The method MarshalBinary: the delegate is swag.WriteJSON. -/
def MarshalBinary (m : Option ServerDrives) : Option Bytes × Option JSONError :=
  MarshalBinaryWith WriteJSON m

/-- The method UnmarshalBinary on a non-nil receiver `m`: the input is read
into a fresh zero record `res`; on an error the error is returned and `m` is
not assigned; otherwise `*m = res`. The result is the receiver after the call
and the error. -/
def UnmarshalBinary (m : ServerDrives) (b : Bytes) : ServerDrives × Option JSONError :=
  let res : ServerDrives := ServerDrives.zero
  match ReadJSON b res with
  | (_, some err) => (m, some err)
  | (filled, none) => (filled, none)

/-! ## Vocabulary of the statements and proofs -/

/-- The JSON value the scanner delimits where the encoder has written the field
value `v`. -/
def jsonOf : Value → JSON
  | .int n => .num (FormatInt n)
  | .str s => .str (stringLoop s.length s)
  | .bool b => .bool b

/-- The Go value a JSON literal stands for, read the way the decoder reads it:
a string is unquoted, a number parsed as an int64. -/
def JSON.toValue : JSON → Option Value
  | .bool b => some (.bool b)
  | .str lit => (unquoteBytes lit).map Value.str
  | .num lit => (ParseInt lit).map Value.int
  | _ => none

/-- The fields of a record that the encoder writes: those whose value is not
empty, in declaration order. -/
def present (m : ServerDrives) : List Field :=
  fields.filter (fun f => !isEmptyValue (m.get f))

/-- The bytes the encoder writes for one field: the key, a colon, the value. -/
def memberBytes (m : ServerDrives) (f : Field) : Bytes :=
  nameEscHTML f ++ encodeValue (m.get f)

/-- The members of the JSON object that encodes a record. -/
def membersOf (m : ServerDrives) : List (Bytes × JSON) :=
  (present m).map (fun f => (f.name, jsonOf (m.get f)))

/-- The members written for a list of fields, separated by commas. -/
def body (m : ServerDrives) : List Field → Bytes
  | [] => []
  | [g] => memberBytes m g
  | g :: h :: gs => memberBytes m g ++ [0x2C] ++ body m (h :: gs)

/-- A field value that JSON text can carry: an int64, a string of valid UTF-8,
a bool. -/
def Value.isText : Value → Prop
  | .int n => isInt64 n
  | .str s => Valid s = true
  | .bool _ => True

/-- The field that a member of a JSON object sets in the decoder, if any. -/
def selects (m : Bytes × JSON) : Option Field :=
  (unquoteBytes m.1).bind lookupField

/-- The members of a JSON value: those of an object, none otherwise. -/
def JSON.members : JSON → List (Bytes × JSON)
  | .obj ms => ms
  | _ => []

/-- The string fields of a record all hold valid UTF-8. -/
def ServerDrives.ValidUTF8 (m : ServerDrives) : Prop :=
  Valid m.DrivePath = true ∧ Valid m.Endpoint = true ∧ Valid m.Model = true ∧
    Valid m.State = true ∧ Valid m.UUID = true

/-- The bytes between the quotes of a string literal that the scanner accepts:
bytes from 0x20 on other than the quote and the backslash, a backslash with one
of the eight escape letters, and u escapes with four hexadecimal digits. -/
inductive StringBody : Bytes → Prop
  | nil : StringBody []
  | plain (c : Nat) (rest : Bytes) (h1 : 0x20 ≤ c) (h2 : c ≠ 0x22) (h3 : c ≠ 0x5C)
      (hr : StringBody rest) : StringBody (c :: rest)
  | esc (e : Nat) (rest : Bytes)
      (he : e = 0x62 ∨ e = 0x66 ∨ e = 0x6E ∨ e = 0x72 ∨ e = 0x74 ∨ e = 0x5C ∨ e = 0x2F ∨ e = 0x22)
      (hr : StringBody rest) : StringBody (0x5C :: e :: rest)
  | escU (a b c d : Nat) (rest : Bytes) (ha : isHex a = true) (hb : isHex b = true)
      (hc : isHex c = true) (hd : isHex d = true) (hr : StringBody rest) :
      StringBody (0x5C :: 0x75 :: a :: b :: c :: d :: rest)

/-- The JSON values all of whose string literals, keys included, are string
bodies. -/
inductive Scanned : JSON → Prop
  | null : Scanned .null
  | bool (b : Bool) : Scanned (.bool b)
  | num (lit : Bytes) : Scanned (.num lit)
  | str (lit : Bytes) (h : StringBody lit) : Scanned (.str lit)
  | arr (xs : List JSON) (h : ∀ x ∈ xs, Scanned x) : Scanned (.arr xs)
  | obj (ms : List (Bytes × JSON)) (hk : ∀ m ∈ ms, StringBody m.1)
      (hv : ∀ m ∈ ms, Scanned m.2) : Scanned (.obj ms)

/-- The stack entries whose collected keys and values are scanned values. -/
def Frame.ok : Frame → Prop
  | .objectKey ms => ∀ m ∈ ms, StringBody m.1 ∧ Scanned m.2
  | .objectValue ms key => (∀ m ∈ ms, StringBody m.1 ∧ Scanned m.2) ∧ StringBody key
  | .arrayValue xs => ∀ x ∈ xs, Scanned x

/-- What the literal buffer holds in the states within a string literal: a
string body, followed by the part of an escape read so far. -/
def litOk (st : Step) (lit : Bytes) : Prop :=
  match st with
  | .InString => StringBody lit
  | .InStringEsc => ∃ p, lit = p ++ [0x5C] ∧ StringBody p
  | .InStringEscU => ∃ p, lit = p ++ [0x5C, 0x75] ∧ StringBody p
  | .InStringEscU1 => ∃ p a, lit = p ++ [0x5C, 0x75, a] ∧ isHex a = true ∧ StringBody p
  | .InStringEscU12 =>
    ∃ p a b, lit = p ++ [0x5C, 0x75, a, b] ∧ isHex a = true ∧ isHex b = true ∧ StringBody p
  | .InStringEscU123 =>
    ∃ p a b c, lit = p ++ [0x5C, 0x75, a, b, c] ∧ isHex a = true ∧ isHex b = true ∧
      isHex c = true ∧ StringBody p
  | _ => True

/-- The invariant of the scanner: the values collected so far are scanned
values and the literal buffer fits the state. -/
def Scanner.Inv (s : Scanner) : Prop :=
  (∀ f ∈ s.parseState, f.ok) ∧ (∀ v, s.val = some v → Scanned v) ∧ litOk s.step s.lit

/-- The text of `n` arrays nested in each other, the innermost one empty. -/
def nested (n : Nat) : Bytes := List.replicate n 0x5B ++ List.replicate n 0x5D

/-! ## Lemmas: UTF-8 -/

theorem first_spec (b sz lo hi : Nat) (h : first b = some (sz, lo, hi)) :
    0xC2 ≤ b ∧ b ≤ 0xF4 ∧ 0x80 ≤ lo ∧ hi ≤ 0xBF ∧
    ((sz = 2 ∧ b ≤ 0xDF) ∨
     (sz = 3 ∧ 0xE0 ≤ b ∧ b ≤ 0xEF ∧ (b = 0xE0 → 0xA0 ≤ lo) ∧ (b = 0xED → hi ≤ 0x9F)) ∨
     (sz = 4 ∧ 0xF0 ≤ b ∧ (b = 0xF0 → 0x90 ≤ lo) ∧ (b = 0xF4 → hi ≤ 0x8F))) := by
  unfold first at h
  split_ifs at h <;> simp at h <;> obtain ⟨rfl, rfl, rfl⟩ := h <;> omega

theorem DecodeRune_multibyte (b : Nat) (rest : Bytes) (c size : Nat)
    (hb : ¬ b < RuneSelf) (h : DecodeRune (b :: rest) = (c, size))
    (hv : ¬ (c = RuneError ∧ size = 1)) :
    ∃ pre tl, b :: rest = pre ++ tl ∧ pre.length = size ∧ 2 ≤ size ∧
      (∀ x ∈ pre, 0x80 ≤ x ∧ x < 0x100) ∧ EncodeRune c = pre ∧ 0x80 ≤ c ∧
      ∀ tl2, DecodeRune (pre ++ tl2) = (c, size) := by
  simp only [RuneSelf] at hb
  simp only [RuneError] at hv
  unfold DecodeRune at h
  simp only [RuneSelf, hb, if_false, RuneError] at h
  rcases hf : first b with _ | ⟨sz, lo, hi⟩
  · rw [hf] at h; simp at h; omega
  · rw [hf] at h
    have hs := first_spec b sz lo hi hf
    simp only at h
    obtain ⟨hb1, hb2, hlo, hhi, hsz⟩ := hs
    rcases hsz with ⟨rfl, hb3⟩ | ⟨rfl, hb3, hb4, hb5, hb6⟩ | ⟨rfl, hb3, hb5, hb6⟩
    · -- two bytes
      rcases rest with _ | ⟨b1, rest⟩
      · simp at h; omega
      · have hl : ¬ ((b :: b1 :: rest).length < 2) := by simp
        simp only [hl, if_false, List.getD_cons_succ, List.getD_cons_zero] at h
        by_cases h2 : b1 < lo ∨ hi < b1
        · simp [h2] at h; omega
        · simp [h2] at h
          obtain ⟨rfl, rfl⟩ := h
          refine ⟨[b, b1], rest, rfl, rfl, le_refl _, ?_, ?_, ?_, ?_⟩
          · intro x hx; simp at hx; omega
          · unfold EncodeRune
            have e1 : ¬ (b % 32 * 64 + b1 % 64 ≤ 0x7F) := by omega
            have e2 : b % 32 * 64 + b1 % 64 ≤ 0x7FF := by omega
            simp only [e1, e2, if_true, if_false]
            congr 1
            · omega
            · congr 1; omega
          · omega
          · intro tl2
            unfold DecodeRune
            simp [RuneSelf, hb, hf, h2]
    · -- three bytes
      rcases rest with _ | ⟨b1, _ | ⟨b2, rest⟩⟩
      · simp at h; omega
      · simp at h; omega
      · have hl : ¬ ((b :: b1 :: b2 :: rest).length < 3) := by simp
        simp only [hl, if_false, List.getD_cons_succ, List.getD_cons_zero] at h
        by_cases h2 : b1 < lo ∨ hi < b1
        · simp [h2] at h; omega
        · by_cases h3 : b2 < 0x80 ∨ 0xBF < b2
          · simp [h2, h3] at h; omega
          · simp [h2, h3] at h
            obtain ⟨rfl, rfl⟩ := h
            refine ⟨[b, b1, b2], rest, rfl, rfl, by omega, ?_, ?_, ?_, ?_⟩
            · intro x hx; simp at hx; omega
            · unfold EncodeRune
              have e1 : ¬ (b % 16 * 4096 + b1 % 64 * 64 + b2 % 64 ≤ 0x7F) := by omega
              have e2 : ¬ (b % 16 * 4096 + b1 % 64 * 64 + b2 % 64 ≤ 0x7FF) := by omega
              have e3 : ¬ (0x10FFFF < b % 16 * 4096 + b1 % 64 * 64 + b2 % 64 ∨
                  (0xD800 ≤ b % 16 * 4096 + b1 % 64 * 64 + b2 % 64 ∧
                    b % 16 * 4096 + b1 % 64 * 64 + b2 % 64 ≤ 0xDFFF)) := by omega
              have e4 : b % 16 * 4096 + b1 % 64 * 64 + b2 % 64 ≤ 0xFFFF := by omega
              simp only [e1, e2, e3, e4, if_true, if_false]
              congr 1
              · omega
              · congr 1
                · omega
                · congr 1; omega
            · omega
            · intro tl2
              unfold DecodeRune
              simp [RuneSelf, hb, hf, h2, h3]
    · -- four bytes
      rcases rest with _ | ⟨b1, _ | ⟨b2, _ | ⟨b3, rest⟩⟩⟩
      · simp at h; omega
      · simp at h; omega
      · simp at h; omega
      · have hl : ¬ ((b :: b1 :: b2 :: b3 :: rest).length < 4) := by simp
        simp only [hl, if_false, List.getD_cons_succ, List.getD_cons_zero] at h
        by_cases h2 : b1 < lo ∨ hi < b1
        · simp [h2] at h; omega
        · by_cases h3 : b2 < 0x80 ∨ 0xBF < b2
          · simp [h2, h3] at h; omega
          · by_cases h4 : b3 < 0x80 ∨ 0xBF < b3
            · simp [h2, h3, h4] at h; omega
            · simp [h2, h3, h4] at h
              obtain ⟨rfl, rfl⟩ := h
              refine ⟨[b, b1, b2, b3], rest, rfl, rfl, by omega, ?_, ?_, ?_, ?_⟩
              · intro x hx; simp at hx; omega
              · unfold EncodeRune
                have e1 : ¬ (b % 8 * 262144 + b1 % 64 * 4096 + b2 % 64 * 64 + b3 % 64 ≤ 0x7F) := by
                  omega
                have e2 : ¬ (b % 8 * 262144 + b1 % 64 * 4096 + b2 % 64 * 64 + b3 % 64 ≤ 0x7FF) := by
                  omega
                have e3 : ¬ (0x10FFFF < b % 8 * 262144 + b1 % 64 * 4096 + b2 % 64 * 64 + b3 % 64 ∨
                    (0xD800 ≤ b % 8 * 262144 + b1 % 64 * 4096 + b2 % 64 * 64 + b3 % 64 ∧
                      b % 8 * 262144 + b1 % 64 * 4096 + b2 % 64 * 64 + b3 % 64 ≤ 0xDFFF)) := by
                  omega
                have e4 : ¬ (b % 8 * 262144 + b1 % 64 * 4096 + b2 % 64 * 64 + b3 % 64 ≤ 0xFFFF) := by
                  omega
                simp only [e1, e2, e3, e4, if_true, if_false]
                congr 1
                · omega
                · congr 1
                  · omega
                  · congr 1
                    · omega
                    · congr 1; omega
              · omega
              · intro tl2
                unfold DecodeRune
                simp [RuneSelf, hb, hf, h2, h3, h4]

/-! ## Lemmas: strconv -/

theorem formatBits_ne_nil (fuel u : Nat) (h : u < fuel) : formatBits fuel u ≠ [] := by
  cases fuel with
  | zero => omega
  | succ n =>
    unfold formatBits
    split_ifs <;> simp

theorem parseDigits_formatBits (fuel : Nat) :
    ∀ (u acc : Nat) (rest : Bytes), u < fuel →
      ∃ k, parseDigits acc (formatBits fuel u ++ rest) = parseDigits (acc * 10 ^ k + u) rest := by
  induction fuel with
  | zero => intro u acc rest h; omega
  | succ n ih =>
    intro u acc rest h
    unfold formatBits
    by_cases hu : u < 10
    · refine ⟨1, ?_⟩
      simp only [hu, if_true, List.singleton_append, parseDigits]
      have h1 : 0x30 ≤ 0x30 + u ∧ 0x30 + u ≤ 0x39 := by omega
      simp only [h1, and_self, if_true]
      congr 1
      omega
    · simp only [hu, if_false, List.append_assoc, List.singleton_append]
      obtain ⟨k, hk⟩ := ih (u / 10) acc ((0x30 + u % 10) :: rest) (by omega)
      refine ⟨k + 1, ?_⟩
      rw [hk]
      simp only [parseDigits]
      have h1 : 0x30 ≤ 0x30 + u % 10 ∧ 0x30 + u % 10 ≤ 0x39 := by omega
      simp only [h1, and_self, if_true]
      congr 1
      have : (acc * 10 ^ k + u / 10) * 10 = acc * 10 ^ (k + 1) + u / 10 * 10 := by ring
      omega

theorem formatBits_digits (fuel : Nat) :
    ∀ u, 0 < u → u < fuel →
      ∃ d ds, formatBits fuel u = d :: ds ∧ 0x31 ≤ d ∧ d ≤ 0x39 ∧ ∀ x ∈ ds, isDigit x = true := by
  induction fuel with
  | zero => intro u _ h; omega
  | succ n ih =>
    intro u h0 h
    unfold formatBits
    by_cases hu : u < 10
    · refine ⟨0x30 + u, [], by simp [hu], by omega, by omega, by simp⟩
    · obtain ⟨d, ds, he, h1, h2, h3⟩ := ih (u / 10) (by omega) (by omega)
      refine ⟨d, ds ++ [0x30 + u % 10], by simp [hu, he], h1, h2, ?_⟩
      intro x hx
      simp only [List.mem_append, List.mem_singleton] at hx
      rcases hx with hx | hx
      · exact h3 x hx
      · subst hx
        simp only [isDigit, decide_eq_true_eq]
        omega

theorem ParseInt_FormatInt (n : Int) (h : isInt64 n) : ParseInt (FormatInt n) = some n := by
  unfold isInt64 at h
  unfold FormatInt
  by_cases hn : n < 0
  · simp only [hn, if_true]
    unfold ParseInt
    simp only [true_or, or_true, if_true]
    obtain ⟨k, hk⟩ := parseDigits_formatBits (n.natAbs + 1) n.natAbs 0 [] (by omega)
    simp only [List.append_nil, zero_mul, zero_add, parseDigits] at hk
    have hne := formatBits_ne_nil (n.natAbs + 1) n.natAbs (by omega)
    unfold ParseUint FormatUint
    rcases hfb : formatBits (n.natAbs + 1) n.natAbs with _ | ⟨d, ds⟩
    · exact absurd hfb hne
    · rw [hfb] at hk
      simp only [hk]
      have h1 : ¬ (n.natAbs > 2 ^ 63) := by omega
      simp only [h1, and_false, not_true_eq_false, false_and, if_false, if_true, Option.some.injEq]
      omega
  · simp only [hn, if_false]
    unfold ParseInt FormatUint
    obtain ⟨k, hk⟩ := parseDigits_formatBits (n.natAbs + 1) n.natAbs 0 [] (by omega)
    simp only [List.append_nil, zero_mul, zero_add, parseDigits] at hk
    have hne := formatBits_ne_nil (n.natAbs + 1) n.natAbs (by omega)
    rcases hfb : formatBits (n.natAbs + 1) n.natAbs with _ | ⟨d, ds⟩
    · exact absurd hfb hne
    · have hd : 0x30 ≤ d ∧ d ≤ 0x39 := by
        by_cases h0 : n.natAbs = 0
        · rw [h0] at hfb
          simp [formatBits] at hfb
          omega
        · obtain ⟨d2, ds2, he, h1, h2, _⟩ :=
            formatBits_digits (n.natAbs + 1) n.natAbs (by omega) (by omega)
          rw [hfb] at he
          simp only [List.cons.injEq] at he
          omega
      have hc1 : ¬ (d = 0x2B) := by omega
      have hc2 : ¬ (d = 0x2D) := by omega
      have h1 : ¬ (n.natAbs ≥ 2 ^ 63) := by omega
      rw [hfb] at hk
      simp only [hc1, hc2, or_self, if_false, ParseUint, hk, h1, and_false, false_and,
        Option.some.injEq]
      omega

/-! ## Lemmas: the scanner on encoder output -/

theorem run_nil (s : Scanner) : s.run [] = s := rfl

theorem run_cons (s : Scanner) (c : Nat) (cs : Bytes) : s.run (c :: cs) = (s.next c).run cs := rfl

theorem run_append (s : Scanner) (a b : Bytes) : s.run (a ++ b) = (s.run a).run b := by
  simp [Scanner.run, List.foldl_append]

theorem scan_plain (ps : List Frame) (v : Option JSON) (e : Bool) (xs : Bytes) :
    ∀ acc : Bytes, (∀ x ∈ xs, 0x20 ≤ x ∧ x ≠ 0x22 ∧ x ≠ 0x5C) →
      Scanner.run ⟨.InString, ps, acc, v, e⟩ xs = ⟨.InString, ps, acc ++ xs, v, e⟩ := by
  induction xs with
  | nil => intro acc _; simp [run_nil]
  | cons x xs ih =>
    intro acc h
    have hx := h x (List.mem_cons_self _ _)
    rw [run_cons]
    have h1 : ¬ (x < 0x20) := by omega
    simp only [Scanner.next, stateInString, hx.2.1, hx.2.2, h1, if_false]
    rw [ih (acc ++ [x]) (fun y hy => h y (List.mem_cons_of_mem _ hy))]
    simp

theorem isHex_hex (n : Nat) (h : n < 16) : isHex (hex n) = true := by
  unfold isHex hex
  split_ifs <;> simp <;> omega

theorem isHex_concrete : isHex 0x30 = true ∧ isHex 0x32 = true ∧ isHex 0x66 = true ∧
    isHex 0x64 = true := by decide

theorem next_escU (ps : List Frame) (acc : Bytes) (v : Option JSON) (e : Bool) (c : Nat)
    (h : isHex c = true) :
    Scanner.next ⟨.InStringEscU, ps, acc, v, e⟩ c = ⟨.InStringEscU1, ps, acc ++ [c], v, e⟩ ∧
    Scanner.next ⟨.InStringEscU1, ps, acc, v, e⟩ c = ⟨.InStringEscU12, ps, acc ++ [c], v, e⟩ ∧
    Scanner.next ⟨.InStringEscU12, ps, acc, v, e⟩ c = ⟨.InStringEscU123, ps, acc ++ [c], v, e⟩ ∧
    Scanner.next ⟨.InStringEscU123, ps, acc, v, e⟩ c = ⟨.InString, ps, acc ++ [c], v, e⟩ := by
  simp [Scanner.next, stateInStringEscHex, h]

theorem scan_escU (ps : List Frame) (acc : Bytes) (v : Option JSON) (e : Bool) (a b c d : Nat)
    (ha : isHex a = true) (hb : isHex b = true) (hc : isHex c = true) (hd : isHex d = true) :
    Scanner.run ⟨.InString, ps, acc, v, e⟩ [0x5C, 0x75, a, b, c, d]
      = ⟨.InString, ps, acc ++ [0x5C, 0x75, a, b, c, d], v, e⟩ := by
  rw [run_cons, run_cons, run_cons, run_cons, run_cons, run_cons, run_nil]
  have h1 : Scanner.next ⟨.InString, ps, acc, v, e⟩ 0x5C = ⟨.InStringEsc, ps, acc ++ [0x5C], v, e⟩ := by
    simp [Scanner.next, stateInString]
  have h2 : Scanner.next ⟨.InStringEsc, ps, acc ++ [0x5C], v, e⟩ 0x75
      = ⟨.InStringEscU, ps, acc ++ [0x5C] ++ [0x75], v, e⟩ := by
    simp [Scanner.next, stateInStringEsc]
  rw [h1, h2, (next_escU ps _ v e a ha).1, (next_escU ps _ v e b hb).2.1,
    (next_escU ps _ v e c hc).2.2.1, (next_escU ps _ v e d hd).2.2.2]
  simp

theorem scan_stringLoop (ps : List Frame) (v : Option JSON) (e : Bool) (fuel : Nat) :
    ∀ (s acc : Bytes),
      Scanner.run ⟨.InString, ps, acc, v, e⟩ (stringLoop fuel s)
        = ⟨.InString, ps, acc ++ stringLoop fuel s, v, e⟩ := by
  induction fuel with
  | zero => intro s acc; simp [stringLoop, run_nil]
  | succ n ih =>
    intro s acc
    rcases s with _ | ⟨b, rest⟩
    · simp [stringLoop, run_nil]
    · unfold stringLoop
      simp only
      by_cases hb : b < RuneSelf
      · simp only [hb, if_true]
        by_cases hs : htmlSafeSet b = true
        · simp only [hs, if_true]
          have hs2 := hs
          simp only [htmlSafeSet, decide_eq_true_eq] at hs2
          rw [run_cons]
          have h1 : ¬ (b < 0x20) := by omega
          simp only [Scanner.next, stateInString, hs2.2.2.1, hs2.2.2.2.2.2.2, h1, if_false]
          rw [ih]
          simp
        · have hs3 : htmlSafeSet b = false := by simpa using hs
          simp only [hs3, Bool.false_eq_true, if_false]
          by_cases h1 : b = 0x5C ∨ b = 0x22
          · simp only [h1, if_true]
            rw [run_append, run_cons, run_cons, run_nil]
            rcases h1 with h1 | h1 <;> subst h1 <;>
              simp [Scanner.next, stateInString, stateInStringEsc, ih]
          · simp only [h1, if_false]
            by_cases h2 : b = 0x0A
            · subst h2
              simp only [if_true]
              rw [run_append, run_cons, run_cons, run_nil]
              simp [Scanner.next, stateInString, stateInStringEsc, ih]
            · simp only [h2, if_false]
              by_cases h3 : b = 0x0D
              · subst h3
                simp only [if_true]
                rw [run_append, run_cons, run_cons, run_nil]
                simp [Scanner.next, stateInString, stateInStringEsc, ih]
              · simp only [h3, if_false]
                by_cases h4 : b = 0x09
                · subst h4
                  simp only [if_true]
                  rw [run_append, run_cons, run_cons, run_nil]
                  simp [Scanner.next, stateInString, stateInStringEsc, ih]
                · simp only [h4, if_false]
                  rw [run_append]
                  simp only [RuneSelf] at hb
                  have hh1 := isHex_hex (b / 16) (by omega)
                  have hh2 := isHex_hex (b % 16) (by omega)
                  rw [scan_escU ps acc v e _ _ _ _ isHex_concrete.1 isHex_concrete.1 hh1 hh2, ih]
                  simp
      · simp only [hb, if_false]
        rcases hd : DecodeRune (b :: rest) with ⟨c, size⟩
        simp only
        by_cases hinv : c = RuneError ∧ size = 1
        · simp only [hinv, and_self, if_true]
          rw [run_append]
          rw [scan_escU ps acc v e _ _ _ _ isHex_concrete.2.2.1 isHex_concrete.2.2.1
            isHex_concrete.2.2.1 isHex_concrete.2.2.2, ih]
          simp
        · simp only [hinv, if_false]
          obtain ⟨pre, tl, hpt, hlen, hsz, hpre, henc, hc, hdec⟩ :=
            DecodeRune_multibyte b rest c size hb hd hinv
          by_cases hsep : c = 0x2028 ∨ c = 0x2029
          · simp only [hsep, if_true]
            rw [run_append]
            have hh := isHex_hex (c % 16) (Nat.mod_lt _ (by decide))
            rw [scan_escU ps acc v e _ _ _ _ isHex_concrete.2.1 isHex_concrete.1
              isHex_concrete.2.1 hh, ih]
            simp
          · simp only [hsep, if_false]
            rw [run_append, hpt]
            have ht : (pre ++ tl).take size = pre := by
              rw [← hlen]; simp
            rw [ht, scan_plain ps v e pre acc (fun x hx => by have := hpre x hx; omega), ih]
            simp

theorem scan_digits (ps : List Frame) (v : Option JSON) (e : Bool) (ds : Bytes) :
    ∀ acc : Bytes, (∀ x ∈ ds, isDigit x = true) →
      Scanner.run ⟨.S1, ps, acc, v, e⟩ ds = ⟨.S1, ps, acc ++ ds, v, e⟩ := by
  induction ds with
  | nil => intro acc _; simp [run_nil]
  | cons x xs ih =>
    intro acc h
    have hx := h x (List.mem_cons_self _ _)
    rw [run_cons]
    simp only [Scanner.next, state1, hx, if_true]
    rw [ih (acc ++ [x]) (fun y hy => h y (List.mem_cons_of_mem _ hy))]
    simp

theorem scan_FormatInt (ps : List Frame) (l : Bytes) (v : Option JSON) (e : Bool) (n : Int)
    (hn : n ≠ 0) :
    Scanner.run ⟨.BeginValue, ps, l, v, e⟩ (FormatInt n) = ⟨.S1, ps, FormatInt n, v, e⟩ := by
  obtain ⟨d, ds, hfb, h1, h2, h3⟩ :=
    formatBits_digits (n.natAbs + 1) n.natAbs (by omega) (by omega)
  unfold FormatInt FormatUint
  rw [hfb]
  have hd1 : ¬ (d = 0x7B) := by omega
  have hd2 : ¬ (d = 0x5B) := by omega
  have hd3 : ¬ (d = 0x22) := by omega
  have hd4 : ¬ (d = 0x2D) := by omega
  have hd5 : ¬ (d = 0x30) := by omega
  have hd6 : ¬ (d = 0x74) := by omega
  have hd7 : ¬ (d = 0x66) := by omega
  have hd8 : ¬ (d = 0x6E) := by omega
  have hsp : isSpace d = false := by
    simp only [isSpace, decide_eq_false_iff_not]; omega
  by_cases hneg : n < 0
  · simp only [hneg, if_true]
    rw [run_cons, run_cons]
    simp only [Scanner.next, stateBeginValue, stateNeg, hd5, h1, h2, and_self, if_true, if_false]
    simp only [isSpace]
    simp only [show ¬ ((0x2D : Nat) = 0x20 ∨ (0x2D : Nat) = 0x09 ∨ (0x2D : Nat) = 0x0D ∨
      (0x2D : Nat) = 0x0A) by omega, decide_False, Bool.false_eq_true, if_false]
    simp only [show ¬ ((0x2D : Nat) = 0x7B) by omega, show ¬ ((0x2D : Nat) = 0x5B) by omega,
      show ¬ ((0x2D : Nat) = 0x22) by omega, if_false, if_true]
    rw [scan_digits ps v e ds _ h3]
    simp
  · simp only [hneg, if_false]
    rw [run_cons]
    simp only [Scanner.next, stateBeginValue, hsp, hd1, hd2, hd3, hd4, hd5, hd6, hd7, hd8, h1, h2,
      and_self, if_true, if_false, Bool.false_eq_true]
    rw [scan_digits ps v e ds _ h3]
    simp

/-! ## Lemmas: unquoting an encoded string -/

theorem hexVal_hex (n : Nat) (h : n < 16) : hexVal (hex n) = some n := by
  unfold hexVal hex
  by_cases h1 : n < 10
  · have : 0x30 ≤ 0x30 + n ∧ 0x30 + n ≤ 0x39 := by omega
    simp only [h1, if_true, this, and_self]
    congr 1; omega
  · have h2 : ¬ (0x30 ≤ 0x57 + n ∧ 0x57 + n ≤ 0x39) := by omega
    have h3 : 0x61 ≤ 0x57 + n ∧ 0x57 + n ≤ 0x66 := by omega
    simp only [h1, if_false, h2, h3, and_self, if_true]
    congr 1; omega

theorem getu4_cons (a b c d va vb vc vd : Nat) (X : Bytes)
    (ha : hexVal a = some va) (hb : hexVal b = some vb) (hc : hexVal c = some vc)
    (hd : hexVal d = some vd) :
    getu4 (0x5C :: 0x75 :: a :: b :: c :: d :: X) = some (((va * 16 + vb) * 16 + vc) * 16 + vd) := by
  unfold getu4
  simp [ha, hb, hc, hd]

theorem unquoteLoop_escU (fuel a b c d va vb vc vd : Nat) (X : Bytes)
    (ha : hexVal a = some va) (hb : hexVal b = some vb) (hc : hexVal c = some vc)
    (hd : hexVal d = some vd)
    (hs : ¬ (0xD800 ≤ ((va * 16 + vb) * 16 + vc) * 16 + vd ∧
      ((va * 16 + vb) * 16 + vc) * 16 + vd < 0xE000)) :
    unquoteLoop (fuel + 1) (0x5C :: 0x75 :: a :: b :: c :: d :: X)
      = (unquoteLoop fuel X).map
          (fun t => EncodeRune (((va * 16 + vb) * 16 + vc) * 16 + vd) ++ t) := by
  rw [unquoteLoop]
  simp only [if_true]
  rw [getu4_cons a b c d va vb vc vd X ha hb hc hd]
  simp [hs]

theorem hexVal_concrete : hexVal 0x30 = some 0 ∧ hexVal 0x32 = some 2 := by decide

theorem validLoop_cons_ascii (fuel b : Nat) (rest : Bytes) (hb : b < RuneSelf)
    (h : validLoop (fuel + 1) (b :: rest) = true) : validLoop fuel rest = true := by
  unfold validLoop at h
  simp only [DecodeRune, hb, if_true] at h
  simp only [RuneSelf] at hb
  have : ¬ (b = RuneError ∧ True) := by simp only [RuneError]; omega
  simp only [List.drop_succ_cons, List.drop_zero] at h
  rw [if_neg this] at h
  exact h

theorem validLoop_cons_multi (fuel b : Nat) (rest : Bytes) (c size : Nat)
    (hd : DecodeRune (b :: rest) = (c, size))
    (h : validLoop (fuel + 1) (b :: rest) = true) :
    ¬ (c = RuneError ∧ size = 1) ∧ validLoop fuel ((b :: rest).drop size) = true := by
  unfold validLoop at h
  simp only [hd] at h
  by_cases hinv : c = RuneError ∧ size = 1
  · simp [hinv] at h
  · exact ⟨hinv, by simpa [hinv] using h⟩

theorem unquoteLoop_plain (fuel b : Nat) (X : Bytes) (c1 : b ≠ 0x5C) (c2 : b ≠ 0x22)
    (c3 : 0x20 ≤ b) (c4 : b < 0x80) :
    unquoteLoop (fuel + 1) (b :: X) = (unquoteLoop fuel X).map (fun t => b :: t) := by
  rw [unquoteLoop.eq_def]
  have c5 : ¬ (b = 0x22 ∨ b < 0x20) := by omega
  have c6 : b < RuneSelf := by simp only [RuneSelf]; omega
  simp only [c1, c5, c6, if_true, if_false]

theorem unquoteLoop_esc (fuel : Nat) (X : Bytes) :
    unquoteLoop (fuel + 1) (0x5C :: 0x22 :: X) = (unquoteLoop fuel X).map (fun t => 0x22 :: t) ∧
    unquoteLoop (fuel + 1) (0x5C :: 0x5C :: X) = (unquoteLoop fuel X).map (fun t => 0x5C :: t) ∧
    unquoteLoop (fuel + 1) (0x5C :: 0x6E :: X) = (unquoteLoop fuel X).map (fun t => 0x0A :: t) ∧
    unquoteLoop (fuel + 1) (0x5C :: 0x72 :: X) = (unquoteLoop fuel X).map (fun t => 0x0D :: t) ∧
    unquoteLoop (fuel + 1) (0x5C :: 0x74 :: X) = (unquoteLoop fuel X).map (fun t => 0x09 :: t) := by
  refine ⟨?_, ?_, ?_, ?_, ?_⟩ <;> rw [unquoteLoop] <;> simp

theorem unquoteLoop_multi (fuel b c size : Nat) (X : Bytes) (hb : ¬ b < RuneSelf)
    (hd : DecodeRune (b :: X) = (c, size)) :
    unquoteLoop (fuel + 1) (b :: X)
      = (unquoteLoop fuel ((b :: X).drop size)).map (fun t => EncodeRune c ++ t) := by
  rw [unquoteLoop.eq_def]
  simp only [RuneSelf] at hb
  have c1 : ¬ (b = 0x5C) := by omega
  have c2 : ¬ (b = 0x22 ∨ b < 0x20) := by omega
  have c3 : ¬ (b < RuneSelf) := by simp only [RuneSelf]; omega
  simp only [c1, c2, c3, if_false, hd]

theorem unquoteLoop_stringLoop (N : Nat) :
    ∀ (s : Bytes) (f1 f2 f3 : Nat), s.length ≤ N → s.length ≤ f1 → s.length ≤ f2 →
      s.length ≤ f3 → validLoop f3 s = true →
      unquoteLoop f2 (stringLoop f1 s) = some s := by
  induction N with
  | zero =>
    intro s f1 f2 f3 hN _ _ _ _
    have : s = [] := List.length_eq_zero.mp (by omega)
    subst this
    cases f1 <;> cases f2 <;> simp [stringLoop, unquoteLoop]
  | succ N ih =>
    intro s f1 f2 f3 hN h1 h2 h3 hv
    rcases s with _ | ⟨b, rest⟩
    · cases f1 <;> cases f2 <;> simp [stringLoop, unquoteLoop]
    · simp only [List.length_cons] at hN h1 h2 h3
      obtain ⟨g1, rfl⟩ : ∃ g, f1 = g + 1 := ⟨f1 - 1, by omega⟩
      obtain ⟨g2, rfl⟩ : ∃ g, f2 = g + 1 := ⟨f2 - 1, by omega⟩
      obtain ⟨g3, rfl⟩ : ∃ g, f3 = g + 1 := ⟨f3 - 1, by omega⟩
      rw [stringLoop]
      by_cases hb : b < RuneSelf
      · have hvr := validLoop_cons_ascii g3 b rest hb hv
        have IH := ih rest g1 g2 g3 (by omega) (by omega) (by omega) (by omega) hvr
        simp only [hb, if_true]
        simp only [RuneSelf] at hb
        by_cases hs : htmlSafeSet b = true
        · simp only [hs, if_true]
          have hs2 := hs
          simp only [htmlSafeSet, decide_eq_true_eq] at hs2
          rw [unquoteLoop_plain g2 b _ (by omega) (by omega) (by omega) (by omega), IH]
          simp
        · have hs3 : htmlSafeSet b = false := by simpa using hs
          simp only [hs3, Bool.false_eq_true, if_false]
          by_cases k1 : b = 0x5C ∨ b = 0x22
          · simp only [k1, if_true]
            simp only [List.cons_append, List.nil_append]
            rcases k1 with k1 | k1 <;> subst k1
            · rw [(unquoteLoop_esc g2 _).2.1, IH]; simp
            · rw [(unquoteLoop_esc g2 _).1, IH]; simp
          · simp only [k1, if_false]
            by_cases k2 : b = 0x0A
            · subst k2
              simp only [if_true, List.cons_append, List.nil_append]
              rw [(unquoteLoop_esc g2 _).2.2.1, IH]; simp
            · simp only [k2, if_false]
              by_cases k3 : b = 0x0D
              · subst k3
                simp only [if_true, List.cons_append, List.nil_append]
                rw [(unquoteLoop_esc g2 _).2.2.2.1, IH]; simp
              · simp only [k3, if_false]
                by_cases k4 : b = 0x09
                · subst k4
                  simp only [if_true, List.cons_append, List.nil_append]
                  rw [(unquoteLoop_esc g2 _).2.2.2.2, IH]; simp
                · simp only [k4, if_false]
                  have e1 := hexVal_hex (b / 16) (by omega)
                  have e2 := hexVal_hex (b % 16) (by omega)
                  have hval : ((0 * 16 + 0) * 16 + b / 16) * 16 + b % 16 = b := by omega
                  have hx := unquoteLoop_escU g2 0x30 0x30 (hex (b / 16)) (hex (b % 16)) 0 0
                    (b / 16) (b % 16) (stringLoop g1 rest) hexVal_concrete.1 hexVal_concrete.1
                    e1 e2 (by omega)
                  rw [hval] at hx
                  simp only [List.cons_append, List.nil_append]
                  rw [hx, IH]
                  have : EncodeRune b = [b] := by
                    unfold EncodeRune
                    simp only [show b ≤ 0x7F by omega, if_true]
                  simp [this]
      · simp only [hb, if_false]
        rcases hd : DecodeRune (b :: rest) with ⟨c, size⟩
        obtain ⟨hinv, hvr⟩ := validLoop_cons_multi g3 b rest c size hd hv
        obtain ⟨pre, tl, hpt, hlen, hsz, hpre, henc, hc, hdec⟩ :=
          DecodeRune_multibyte b rest c size hb hd hinv
        have hdrop : (b :: rest).drop size = tl := by
          rw [hpt, ← hlen]; simp
        have htake : (b :: rest).take size = pre := by
          rw [hpt, ← hlen]; simp
        have hlen2 : (b :: rest).length = size + tl.length := by
          rw [hpt, List.length_append, hlen]
        simp only [List.length_cons] at hlen2
        rw [hdrop] at hvr
        have IH := ih tl g1 g2 g3 (by omega) (by omega) (by omega) (by omega) hvr
        simp only [hinv, if_false, hdrop, htake]
        by_cases hsep : c = 0x2028 ∨ c = 0x2029
        · simp only [hsep, if_true]
          have e2 := hexVal_hex (c % 16) (Nat.mod_lt _ (by decide))
          have hval : ((2 * 16 + 0) * 16 + 2) * 16 + c % 16 = c := by omega
          have hx := unquoteLoop_escU g2 0x32 0x30 0x32 (hex (c % 16)) 2 0 2 (c % 16)
            (stringLoop g1 tl) hexVal_concrete.2 hexVal_concrete.1 hexVal_concrete.2 e2 (by omega)
          rw [hval] at hx
          simp only [List.cons_append, List.nil_append]
          rw [hx, IH, henc, hpt]
          simp
        · simp only [hsep, if_false]
          rcases pre with _ | ⟨p0, pre2⟩
          · simp at hlen; omega
          · have hp0 : p0 = b := by
              have := congrArg List.head? hpt
              simpa using this.symm
            subst hp0
            have hdec2 := hdec (stringLoop g1 tl)
            simp only [List.cons_append] at hdec2 ⊢
            rw [unquoteLoop_multi g2 p0 c size _ hb hdec2]
            have hdrop2 : (p0 :: (pre2 ++ stringLoop g1 tl)).drop size = stringLoop g1 tl := by
              rw [← hlen, ← List.cons_append]; simp
            rw [hdrop2, IH, henc, hpt]
            simp

theorem length_stringLoop (N : Nat) :
    ∀ (s : Bytes) (f : Nat), s.length ≤ N → s.length ≤ f → s.length ≤ (stringLoop f s).length := by
  induction N with
  | zero =>
    intro s f hN _
    have : s = [] := List.length_eq_zero.mp (by omega)
    subst this
    simp
  | succ N ih =>
    intro s f hN hf
    rcases s with _ | ⟨b, rest⟩
    · simp
    · simp only [List.length_cons] at hN hf
      obtain ⟨g, rfl⟩ : ∃ g, f = g + 1 := ⟨f - 1, by omega⟩
      rw [stringLoop]
      by_cases hb : b < RuneSelf
      · have IH := ih rest g (by omega) (by omega)
        simp only [hb, if_true]
        split_ifs <;> simp <;> omega
      · simp only [hb, if_false]
        rcases hd : DecodeRune (b :: rest) with ⟨c, size⟩
        simp only
        by_cases hinv : c = RuneError ∧ size = 1
        · simp only [hinv, and_self, if_true]
          have IH := ih ((b :: rest).drop 1) g (by simp; omega) (by simp; omega)
          simp only [List.drop_succ_cons, List.drop_zero] at IH
          simp
          omega
        · obtain ⟨pre, tl, hpt, hlen, hsz, hpre, henc, hc, hdec⟩ :=
            DecodeRune_multibyte b rest c size hb hd hinv
          have hdrop : (b :: rest).drop size = tl := by
            rw [hpt, ← hlen]; simp
          have htake : (b :: rest).take size = pre := by
            rw [hpt, ← hlen]; simp
          have hlen2 : (b :: rest).length = size + tl.length := by
            rw [hpt, List.length_append, hlen]
          simp only [List.length_cons] at hlen2
          have IH := ih tl g (by omega) (by omega)
          simp only [hinv, if_false, hdrop, htake]
          have hsz4 : size ≤ 4 := by
            have h1 := congrArg List.length henc
            rw [hlen] at h1
            rw [← h1]
            unfold EncodeRune
            split_ifs <;> simp
          split_ifs <;> simp <;> omega

theorem unquoteBytes_stringLoop (s : Bytes) (h : Valid s = true) :
    unquoteBytes (stringLoop s.length s) = some s := by
  unfold unquoteBytes
  exact unquoteLoop_stringLoop s.length s s.length _ s.length (le_refl _) (le_refl _)
    (length_stringLoop s.length s s.length (le_refl _) (le_refl _)) (le_refl _) h

/-! ## Lemmas: the scanner on an encoded record -/

theorem name_plain (f : Field) : ∀ x ∈ f.name, 0x20 ≤ x ∧ x ≠ 0x22 ∧ x ≠ 0x5C := by
  cases f <;> decide

theorem scan_key (st : Step) (hst : st = .BeginString ∨ st = .BeginStringOrEmpty)
    (ms : List (Bytes × JSON)) (l : Bytes) (v : Option JSON) (e : Bool) (f : Field) :
    Scanner.run ⟨st, [.objectKey ms], l, v, e⟩ (nameEscHTML f)
      = ⟨.BeginValue, [.objectValue ms f.name], f.name, some (.str f.name), e⟩ := by
  unfold nameEscHTML
  simp only [List.singleton_append, List.cons_append, List.nil_append]
  rw [run_cons]
  have h1 : Scanner.next ⟨st, [.objectKey ms], l, v, e⟩ 0x22
      = ⟨.InString, [.objectKey ms], [], v, e⟩ := by
    rcases hst with rfl | rfl <;>
      simp [Scanner.next, stateBeginString, stateBeginStringOrEmpty, isSpace]
  rw [h1, run_append, scan_plain _ _ _ _ _ (name_plain f), run_cons, run_cons, run_nil]
  simp [Scanner.next, stateInString, stateEndValue, isSpace]

theorem end_value_comma (st : Step) (ms : List (Bytes × JSON)) (key l : Bytes) (j : JSON)
    (e : Bool) :
    stateEndValue ⟨st, [.objectValue ms key], l, some j, e⟩ 0x2C
      = ⟨.BeginString, [.objectKey (ms ++ [(key, j)])], l, some j, e⟩ := by
  simp [stateEndValue, isSpace]

theorem end_value_brace (st : Step) (ms : List (Bytes × JSON)) (key l : Bytes) (j : JSON)
    (e : Bool) :
    stateEndValue ⟨st, [.objectValue ms key], l, some j, e⟩ 0x7D
      = ⟨.EndTop, [], l, some (.obj (ms ++ [(key, j)])), true⟩ := by
  simp [stateEndValue, isSpace, Scanner.popParseState]

theorem scan_value (ms : List (Bytes × JSON)) (key l : Bytes) (v : Option JSON) (e : Bool)
    (val : Value) (hne : isEmptyValue val = false) :
    ∃ l2,
      Scanner.run ⟨.BeginValue, [.objectValue ms key], l, v, e⟩ (encodeValue val ++ [0x2C])
        = ⟨.BeginString, [.objectKey (ms ++ [(key, jsonOf val)])], l2, some (jsonOf val), e⟩ ∧
      Scanner.run ⟨.BeginValue, [.objectValue ms key], l, v, e⟩ (encodeValue val ++ [0x7D])
        = ⟨.EndTop, [], l2, some (.obj (ms ++ [(key, jsonOf val)])), true⟩ := by
  cases val with
  | int n =>
    have hn : n ≠ 0 := by simpa [isEmptyValue] using hne
    refine ⟨FormatInt n, ?_, ?_⟩
    · rw [run_append, encodeValue, scan_FormatInt _ _ _ _ _ hn, run_cons, run_nil]
      simp only [Scanner.next, state1, state0, endNumber, jsonOf]
      rw [← end_value_comma .S1 ms key (FormatInt n) (.num (FormatInt n)) e]
      simp [isDigit]
    · rw [run_append, encodeValue, scan_FormatInt _ _ _ _ _ hn, run_cons, run_nil]
      simp only [Scanner.next, state1, state0, endNumber, jsonOf]
      rw [← end_value_brace .S1 ms key (FormatInt n) (.num (FormatInt n)) e]
      simp [isDigit]
  | str s =>
    refine ⟨stringLoop s.length s, ?_, ?_⟩
    · simp only [encodeValue, encodeString, jsonOf, List.append_assoc, List.singleton_append,
        List.cons_append, List.nil_append]
      rw [run_cons]
      have h1 : Scanner.next ⟨.BeginValue, [.objectValue ms key], l, v, e⟩ 0x22
          = ⟨.InString, [.objectValue ms key], [], v, e⟩ := by
        simp [Scanner.next, stateBeginValue, isSpace]
      rw [h1, run_append, scan_stringLoop, run_cons, run_cons, run_nil]
      simp only [Scanner.next, stateInString, List.nil_append, if_true]
      exact end_value_comma .EndValue ms key _ _ e
    · simp only [encodeValue, encodeString, jsonOf, List.append_assoc, List.singleton_append,
        List.cons_append, List.nil_append]
      rw [run_cons]
      have h1 : Scanner.next ⟨.BeginValue, [.objectValue ms key], l, v, e⟩ 0x22
          = ⟨.InString, [.objectValue ms key], [], v, e⟩ := by
        simp [Scanner.next, stateBeginValue, isSpace]
      rw [h1, run_append, scan_stringLoop, run_cons, run_cons, run_nil]
      simp only [Scanner.next, stateInString, List.nil_append, if_true]
      exact end_value_brace .EndValue ms key _ _ e
  | bool b =>
    have hb : b = true := by simpa [isEmptyValue] using hne
    subst hb
    refine ⟨l, ?_, ?_⟩
    · simp [encodeValue, ascii, jsonOf, run_cons, run_nil, Scanner.next, stateBeginValue, isSpace,
        stateWord, stateWordEnd, stateEndValue]
    · simp [encodeValue, ascii, jsonOf, run_cons, run_nil, Scanner.next, stateBeginValue, isSpace,
        stateWord, stateWordEnd, stateEndValue, Scanner.popParseState]

theorem scan_member (st : Step) (hst : st = .BeginString ∨ st = .BeginStringOrEmpty)
    (ms : List (Bytes × JSON)) (l : Bytes) (v : Option JSON) (m : ServerDrives) (f : Field)
    (hne : isEmptyValue (m.get f) = false) :
    ∃ l2 v2,
      Scanner.run ⟨st, [.objectKey ms], l, v, false⟩ (memberBytes m f ++ [0x2C])
        = ⟨.BeginString, [.objectKey (ms ++ [(f.name, jsonOf (m.get f))])], l2, v2, false⟩ ∧
      Scanner.run ⟨st, [.objectKey ms], l, v, false⟩ (memberBytes m f ++ [0x7D])
        = ⟨.EndTop, [], l2, some (.obj (ms ++ [(f.name, jsonOf (m.get f))])), true⟩ := by
  obtain ⟨l2, h1, h2⟩ := scan_value ms f.name f.name (some (.str f.name)) false (m.get f) hne
  refine ⟨l2, some (jsonOf (m.get f)), ?_, ?_⟩
  · unfold memberBytes
    rw [List.append_assoc, run_append, scan_key st hst, h1]
  · unfold memberBytes
    rw [List.append_assoc, run_append, scan_key st hst, h2]

theorem scan_body (m : ServerDrives) (P : List Field) :
    ∀ (st : Step) (ms : List (Bytes × JSON)) (l : Bytes) (v : Option JSON),
      (st = .BeginString ∨ st = .BeginStringOrEmpty) → P ≠ [] →
      (∀ f ∈ P, isEmptyValue (m.get f) = false) →
      ∃ l2, Scanner.run ⟨st, [.objectKey ms], l, v, false⟩ (body m P ++ [0x7D])
        = ⟨.EndTop, [], l2,
            some (.obj (ms ++ P.map (fun f => (f.name, jsonOf (m.get f))))), true⟩ := by
  induction P with
  | nil => intro _ _ _ _ _ h; exact absurd rfl h
  | cons g gs ih =>
    intro st ms l v hst _ hne
    rcases gs with _ | ⟨h, gs⟩
    · obtain ⟨l2, v2, _, h2⟩ := scan_member st hst ms l v m g (hne g (List.mem_cons_self _ _))
      exact ⟨l2, by simpa [body] using h2⟩
    · obtain ⟨l2, v2, h1, _⟩ := scan_member st hst ms l v m g (hne g (List.mem_cons_self _ _))
      obtain ⟨l3, h3⟩ := ih .BeginString (ms ++ [(g.name, jsonOf (m.get g))]) l2 v2 (Or.inl rfl)
        (by simp) (fun f hf => hne f (List.mem_cons_of_mem _ hf))
      refine ⟨l3, ?_⟩
      have : body m (g :: h :: gs) ++ [0x7D]
          = (memberBytes m g ++ [0x2C]) ++ (body m (h :: gs) ++ [0x7D]) := by
        simp [body]
      rw [this, run_append, h1, h3]
      simp

theorem foldl_encodeField (m : ServerDrives) (fs : List Field) :
    ∀ (buf : Bytes) (nx : Nat),
      fs.foldl (encodeField m) (buf, nx)
        = if fs.filter (fun f => !isEmptyValue (m.get f)) = [] then (buf, nx)
          else (buf ++ [nx] ++ body m (fs.filter (fun f => !isEmptyValue (m.get f))), 0x2C) := by
  induction fs with
  | nil => intro buf nx; simp
  | cons f fs ih =>
    intro buf nx
    rw [List.foldl_cons]
    by_cases he : isEmptyValue (m.get f) = true
    · simp only [encodeField, he, if_true]
      rw [ih]
      simp [List.filter_cons, he]
    · have he2 : isEmptyValue (m.get f) = false := by simpa using he
      simp only [encodeField, he2, Bool.false_eq_true, if_false]
      rw [ih]
      rcases hP : fs.filter (fun f => !isEmptyValue (m.get f)) with _ | ⟨g, gs⟩
      · simp [List.filter_cons, he2, hP, body, memberBytes]
      · simp [List.filter_cons, he2, hP, body, memberBytes]

theorem structEncode_eq (m : ServerDrives) :
    structEncode m = if present m = [] then [0x7B, 0x7D] else 0x7B :: (body m (present m) ++ [0x7D]) := by
  unfold structEncode
  simp only [foldl_encodeField]
  unfold present
  split_ifs <;> simp_all

theorem checkValid_structEncode (m : ServerDrives) :
    checkValid (structEncode m) = some (.obj (membersOf m)) := by
  rw [structEncode_eq]
  by_cases hP : present m = []
  · simp only [hP, if_true, membersOf, List.map_nil]
    rfl
  · simp only [hP, if_false]
    obtain ⟨l2, h⟩ := scan_body m (present m) .BeginStringOrEmpty [] [] none (Or.inr rfl) hP
      (fun f hf => by
        have := (List.mem_filter.mp hf).2
        simpa using this)
    unfold checkValid
    rw [run_cons]
    have h0 : Scanner.reset.next 0x7B = ⟨.BeginStringOrEmpty, [.objectKey []], [], none, false⟩ := by
      rfl
    rw [h0, h]
    simp [Scanner.eof, membersOf]

theorem trimNUL_structEncode (m : ServerDrives) : trimNUL (structEncode m) = structEncode m := by
  rw [structEncode_eq]
  split_ifs
  · rfl
  · unfold trimNUL
    simp [List.dropWhile]

/-! ## Lemmas: every string literal the scanner accepts can be unquoted -/

theorem StringBody.append {a b : Bytes} (ha : StringBody a) (hb : StringBody b) :
    StringBody (a ++ b) := by
  induction ha with
  | nil => simpa using hb
  | plain c rest h1 h2 h3 _ ih => exact .plain c _ h1 h2 h3 ih
  | esc e rest he _ ih => exact .esc e _ he ih
  | escU a b c d rest ha hb hc hd _ ih => exact .escU a b c d _ ha hb hc hd ih

theorem StringBody.drop_high (k : Nat) :
    ∀ l : Bytes, StringBody l → k ≤ l.length → (∀ x ∈ l.take k, 0x80 ≤ x) →
      StringBody (l.drop k) := by
  induction k with
  | zero => intro l h _ _; simpa using h
  | succ k ih =>
    intro l h hk hx
    rcases l with _ | ⟨c, rest⟩
    · simp at hk
    · have hc : 0x80 ≤ c := hx c (by simp)
      simp only [List.drop_succ_cons]
      cases h with
      | plain _ _ _ _ _ hr =>
        exact ih rest hr (by simpa using hk) (fun x hx2 => hx x (by simp [hx2]))
      | esc e rest2 _ _ => omega
      | escU a b c2 d rest2 _ _ _ _ _ => omega

theorem unquoteLoop_nil (fuel : Nat) : unquoteLoop fuel [] = some [] := by
  cases fuel <;> simp [unquoteLoop]

theorem unquoteLoop_esc_some (fuel e : Nat) (X : Bytes)
    (he : e = 0x62 ∨ e = 0x66 ∨ e = 0x6E ∨ e = 0x72 ∨ e = 0x74 ∨ e = 0x5C ∨ e = 0x2F ∨ e = 0x22) :
    ∃ x, unquoteLoop (fuel + 1) (0x5C :: e :: X) = (unquoteLoop fuel X).map (fun t => x :: t) := by
  rcases he with h | h | h | h | h | h | h | h <;> subst h
  · exact ⟨0x08, by rw [unquoteLoop]; simp⟩
  · exact ⟨0x0C, by rw [unquoteLoop]; simp⟩
  · exact ⟨0x0A, by rw [unquoteLoop]; simp⟩
  · exact ⟨0x0D, by rw [unquoteLoop]; simp⟩
  · exact ⟨0x09, by rw [unquoteLoop]; simp⟩
  · exact ⟨0x5C, by rw [unquoteLoop]; simp⟩
  · exact ⟨0x2F, by rw [unquoteLoop]; simp⟩
  · exact ⟨0x22, by rw [unquoteLoop]; simp⟩

theorem hexVal_of_isHex (c : Nat) (h : isHex c = true) : ∃ v, hexVal c = some v ∧ v < 16 := by
  simp only [isHex, decide_eq_true_eq] at h
  unfold hexVal
  rcases h with h | h | h
  · exact ⟨c - 0x30, by simp [h], by omega⟩
  · have h2 : ¬ (0x30 ≤ c ∧ c ≤ 0x39) := by omega
    exact ⟨c - 0x61 + 10, by simp [h, h2], by omega⟩
  · have h2 : ¬ (0x30 ≤ c ∧ c ≤ 0x39) := by omega
    have h3 : ¬ (0x61 ≤ c ∧ c ≤ 0x66) := by omega
    exact ⟨c - 0x41 + 10, by simp [h, h2, h3], by omega⟩

theorem getu4_some_shape (s : Bytes) (r : Nat) (h : getu4 s = some r) :
    ∃ a b c d rest, s = 0x5C :: 0x75 :: a :: b :: c :: d :: rest := by
  unfold getu4 at h
  split_ifs at h with h1
  rcases s with _ | ⟨x0, _ | ⟨x1, _ | ⟨a, _ | ⟨b, _ | ⟨c, _ | ⟨d, rest⟩⟩⟩⟩⟩⟩ <;>
    simp at h1
  obtain ⟨h2, h3⟩ := h1
  exact ⟨a, b, c, d, rest, by rw [h2, h3]⟩

theorem unquoteLoop_escU_gen (fuel a b c d va vb vc vd : Nat) (X : Bytes)
    (ha : hexVal a = some va) (hb : hexVal b = some vb) (hc : hexVal c = some vc)
    (hd : hexVal d = some vd) :
    unquoteLoop (fuel + 1) (0x5C :: 0x75 :: a :: b :: c :: d :: X)
      = if 0xD800 ≤ ((va * 16 + vb) * 16 + vc) * 16 + vd ∧
            ((va * 16 + vb) * 16 + vc) * 16 + vd < 0xE000 then
          if utf16DecodeRune (((va * 16 + vb) * 16 + vc) * 16 + vd) (getu4 X) ≠ 0xFFFD then
            (unquoteLoop fuel (X.drop 6)).map (fun t =>
              EncodeRune (utf16DecodeRune (((va * 16 + vb) * 16 + vc) * 16 + vd) (getu4 X)) ++ t)
          else (unquoteLoop fuel X).map (fun t => EncodeRune 0xFFFD ++ t)
        else (unquoteLoop fuel X).map
          (fun t => EncodeRune (((va * 16 + vb) * 16 + vc) * 16 + vd) ++ t) := by
  rw [unquoteLoop]
  simp only [if_true]
  rw [getu4_cons a b c d va vb vc vd X ha hb hc hd]
  simp

theorem StringBody.after_escU {a b c d : Nat} {rest : Bytes}
    (h : StringBody (0x5C :: 0x75 :: a :: b :: c :: d :: rest)) : StringBody rest := by
  cases h with
  | plain _ _ _ _ h3 _ => exact absurd rfl h3
  | esc e rest2 he _ => omega
  | escU _ _ _ _ _ _ _ _ _ hr => exact hr

theorem unquoteLoop_body (N : Nat) :
    ∀ (l : Bytes), l.length ≤ N → StringBody l → ∀ fuel, l.length ≤ fuel →
      ∃ t, unquoteLoop fuel l = some t := by
  induction N with
  | zero =>
    intro l hN _ fuel _
    have : l = [] := List.length_eq_zero.mp (by omega)
    subst this
    exact ⟨[], unquoteLoop_nil fuel⟩
  | succ N ih =>
    intro l hN hl fuel hf
    cases hl with
    | nil => exact ⟨[], unquoteLoop_nil fuel⟩
    | plain c rest h1 h2 h3 hr =>
      simp only [List.length_cons] at hN hf
      obtain ⟨g, rfl⟩ : ∃ g, fuel = g + 1 := ⟨fuel - 1, by omega⟩
      by_cases hc : c < 0x80
      · obtain ⟨t, ht⟩ := ih rest (by omega) hr g (by omega)
        exact ⟨c :: t, by rw [unquoteLoop_plain g c rest h3 h2 h1 hc, ht]; rfl⟩
      · have hb : ¬ c < RuneSelf := by simpa [RuneSelf] using hc
        rcases hd : DecodeRune (c :: rest) with ⟨r, size⟩
        rw [unquoteLoop_multi g c r size rest hb hd]
        by_cases hinv : r = RuneError ∧ size = 1
        · obtain ⟨t, ht⟩ := ih rest (by omega) hr g (by omega)
          refine ⟨EncodeRune r ++ t, ?_⟩
          rw [hinv.2]
          simp [ht]
        · obtain ⟨pre, tl, hpt, hlen, hsz, hpre, _, _, _⟩ :=
            DecodeRune_multibyte c rest r size hb hd hinv
          have hdrop : (c :: rest).drop size = tl := by
            rw [hpt, ← hlen]; simp
          have htake : (c :: rest).take size = pre := by
            rw [hpt, ← hlen]; simp
          have hlen2 : (c :: rest).length = size + tl.length := by
            rw [hpt, List.length_append, hlen]
          simp only [List.length_cons] at hlen2
          have hbody : StringBody ((c :: rest).drop size) :=
            StringBody.drop_high size (c :: rest) (.plain c rest h1 h2 h3 hr)
              (by simp only [List.length_cons]; omega)
              (fun x hx => by rw [htake] at hx; exact (hpre x hx).1)
          rw [hdrop] at hbody ⊢
          obtain ⟨t, ht⟩ := ih tl (by omega) hbody g (by omega)
          exact ⟨EncodeRune r ++ t, by rw [ht]; rfl⟩
    | esc e rest he hr =>
      simp only [List.length_cons] at hN hf
      obtain ⟨g, rfl⟩ : ∃ g, fuel = g + 1 := ⟨fuel - 1, by omega⟩
      obtain ⟨t, ht⟩ := ih rest (by omega) hr g (by omega)
      obtain ⟨x, hx⟩ := unquoteLoop_esc_some g e rest he
      exact ⟨x :: t, by rw [hx, ht]; rfl⟩
    | escU a b c d rest ha hb hc hd hr =>
      simp only [List.length_cons] at hN hf
      obtain ⟨g, rfl⟩ : ∃ g, fuel = g + 1 := ⟨fuel - 1, by omega⟩
      obtain ⟨va, hva, _⟩ := hexVal_of_isHex a ha
      obtain ⟨vb, hvb, _⟩ := hexVal_of_isHex b hb
      obtain ⟨vc, hvc, _⟩ := hexVal_of_isHex c hc
      obtain ⟨vd, hvd, _⟩ := hexVal_of_isHex d hd
      obtain ⟨t, ht⟩ := ih rest (by omega) hr g (by omega)
      rw [unquoteLoop_escU_gen g a b c d va vb vc vd rest hva hvb hvc hvd]
      split_ifs with hs hdec
      · -- a surrogate pair: the second escape is consumed as well
        have hsome : ∃ r2, getu4 rest = some r2 := by
          rcases hg : getu4 rest with _ | r2
          · rw [hg] at hdec
            simp [utf16DecodeRune] at hdec
          · exact ⟨r2, rfl⟩
        obtain ⟨r2, hr2⟩ := hsome
        obtain ⟨a2, b2, c2, d2, rest2, hrest⟩ := getu4_some_shape rest r2 hr2
        subst hrest
        simp only [List.length_cons] at hN hf
        obtain ⟨t2, ht2⟩ := ih rest2 (by omega) (StringBody.after_escU hr) g (by omega)
        simp only [List.drop_succ_cons, List.drop_zero, ht2]
        exact ⟨_, rfl⟩
      · rw [ht]; exact ⟨_, rfl⟩
      · rw [ht]; exact ⟨_, rfl⟩

theorem unquoteBytes_body (l : Bytes) (h : StringBody l) : ∃ t, unquoteBytes l = some t :=
  unquoteLoop_body l.length l (le_refl _) h l.length (le_refl _)

theorem error_inv (s : Scanner) (h : s.Inv) : s.error.Inv :=
  ⟨h.1, h.2.1, by simp only [Scanner.error, litOk]⟩

theorem stateEndTop_inv (s : Scanner) (c : Nat) (h : s.Inv) : (stateEndTop s c).Inv := by
  unfold stateEndTop
  split_ifs
  · exact h
  · exact error_inv s h

theorem pop_inv (s : Scanner) (v : JSON) (h : s.Inv) (hv : Scanned v) :
    (s.popParseState v).Inv := by
  have ht : ∀ f ∈ s.parseState.tail, f.ok := fun f hf => h.1 f (List.mem_of_mem_tail hf)
  unfold Scanner.popParseState
  split
  · exact ⟨by simp, by intro x hx; simp only [Option.some.injEq] at hx; subst hx; exact hv,
      by simp only [litOk]⟩
  · rename_i f rest heq
    refine ⟨?_, by intro x hx; simp only [Option.some.injEq] at hx; subst hx; exact hv, by simp only [litOk]⟩
    intro g hg
    exact ht g (by rw [heq]; exact hg)

theorem push_inv (s : Scanner) (f : Frame) (next : Step) (h : s.Inv) (hf : f.ok)
    (hn : ∀ l, litOk next l) : (s.pushParseState f next).Inv := by
  unfold Scanner.pushParseState
  split_ifs
  · refine ⟨?_, h.2.1, hn _⟩
    intro g hg
    simp only [List.mem_cons] at hg
    rcases hg with rfl | hg
    · exact hf
    · exact h.1 g hg
  · exact error_inv s h

theorem stateEndValue_inv (s : Scanner) (c : Nat) (h : s.Inv) : (stateEndValue s c).Inv := by
  unfold stateEndValue
  split
  · exact stateEndTop_inv _ c ⟨h.1, h.2.1, by simp only [litOk]⟩
  · rename_i ps rest heq
    have hps : ps.ok := h.1 ps (by rw [heq]; simp)
    have hrest : ∀ g ∈ rest, g.ok := fun g hg => h.1 g (by rw [heq]; simp [hg])
    by_cases hsp : isSpace c = true
    · simp only [hsp, if_true]
      exact ⟨h.1, h.2.1, by simp only [litOk]⟩
    · have hsp2 : isSpace c = false := by simpa using hsp
      simp only [hsp2, Bool.false_eq_true, if_false]
      split
      · rename_i ms key hval
        have hkey : StringBody key := by
          have := h.2.1 _ hval
          cases this with
          | str _ hb => exact hb
        split_ifs
        · refine ⟨?_, h.2.1, by simp only [litOk]⟩
          intro g hg
          simp only [List.mem_cons] at hg
          rcases hg with rfl | hg
          · exact ⟨hps, hkey⟩
          · exact hrest g hg
        · exact error_inv s h
      · rename_i ms key v hval
        have hv : Scanned v := h.2.1 _ hval
        have hms : ∀ m ∈ ms ++ [(key, v)], StringBody m.1 ∧ Scanned m.2 := by
          intro m hm
          simp only [List.mem_append, List.mem_singleton] at hm
          rcases hm with hm | rfl
          · exact hps.1 m hm
          · exact ⟨hps.2, hv⟩
        split_ifs
        · refine ⟨?_, h.2.1, by simp only [litOk]⟩
          intro g hg
          simp only [List.mem_cons] at hg
          rcases hg with rfl | hg
          · exact hms
          · exact hrest g hg
        · exact pop_inv s _ h (.obj _ (fun m hm => (hms m hm).1) (fun m hm => (hms m hm).2))
        · exact error_inv s h
      · rename_i xs v hval
        have hv : Scanned v := h.2.1 _ hval
        have hxs : ∀ x ∈ xs ++ [v], Scanned x := by
          intro x hx
          simp only [List.mem_append, List.mem_singleton] at hx
          rcases hx with hx | rfl
          · exact hps x hx
          · exact hv
        split_ifs
        · refine ⟨?_, h.2.1, by simp only [litOk]⟩
          intro g hg
          simp only [List.mem_cons] at hg
          rcases hg with rfl | hg
          · exact hxs
          · exact hrest g hg
        · exact pop_inv s _ h (.arr _ hxs)
        · exact error_inv s h
      · exact error_inv s h

theorem stateBeginString_inv (s : Scanner) (c : Nat) (h : s.Inv) : (stateBeginString s c).Inv := by
  unfold stateBeginString
  split_ifs
  · exact h
  · exact ⟨h.1, h.2.1, StringBody.nil⟩
  · exact error_inv s h

theorem stateBeginStringOrEmpty_inv (s : Scanner) (c : Nat) (h : s.Inv) :
    (stateBeginStringOrEmpty s c).Inv := by
  unfold stateBeginStringOrEmpty
  split_ifs
  · exact h
  · split
    · rename_i ms rest heq
      have hps : (Frame.objectKey ms).ok := h.1 _ (by rw [heq]; simp)
      exact pop_inv s _ h (.obj _ (fun m hm => (hps m hm).1) (fun m hm => (hps m hm).2))
    · exact error_inv s h
  · exact stateBeginString_inv s c h

theorem stateBeginValue_inv (s : Scanner) (c : Nat) (h : s.Inv) : (stateBeginValue s c).Inv := by
  unfold stateBeginValue
  by_cases h0 : isSpace c = true
  · rw [if_pos h0]; exact h
  rw [if_neg h0]
  by_cases h1 : c = 0x7B
  · rw [if_pos h1]
    exact push_inv s _ _ h (by intro m hm; simp at hm) (fun _ => by simp only [litOk])
  rw [if_neg h1]
  by_cases h2 : c = 0x5B
  · rw [if_pos h2]
    exact push_inv s _ _ h (by intro m hm; simp at hm) (fun _ => by simp only [litOk])
  rw [if_neg h2]
  by_cases h3 : c = 0x22
  · rw [if_pos h3]; exact ⟨h.1, h.2.1, StringBody.nil⟩
  rw [if_neg h3]
  by_cases h4 : c = 0x2D
  · rw [if_pos h4]; exact ⟨h.1, h.2.1, by simp only [litOk]⟩
  rw [if_neg h4]
  by_cases h5 : c = 0x30
  · rw [if_pos h5]; exact ⟨h.1, h.2.1, by simp only [litOk]⟩
  rw [if_neg h5]
  by_cases h6 : c = 0x74
  · rw [if_pos h6]; exact ⟨h.1, h.2.1, by simp only [litOk]⟩
  rw [if_neg h6]
  by_cases h7 : c = 0x66
  · rw [if_pos h7]; exact ⟨h.1, h.2.1, by simp only [litOk]⟩
  rw [if_neg h7]
  by_cases h8 : c = 0x6E
  · rw [if_pos h8]; exact ⟨h.1, h.2.1, by simp only [litOk]⟩
  rw [if_neg h8]
  by_cases h9 : 0x31 ≤ c ∧ c ≤ 0x39
  · rw [if_pos h9]; exact ⟨h.1, h.2.1, by simp only [litOk]⟩
  rw [if_neg h9]
  exact error_inv s h

theorem stateBeginValueOrEmpty_inv (s : Scanner) (c : Nat) (h : s.Inv) :
    (stateBeginValueOrEmpty s c).Inv := by
  unfold stateBeginValueOrEmpty
  split_ifs
  · exact h
  · split
    · rename_i xs rest heq
      have hps : (Frame.arrayValue xs).ok := h.1 _ (by rw [heq]; simp)
      exact pop_inv s _ h (.arr _ hps)
    · exact error_inv s h
  · exact stateBeginValue_inv s c h

theorem endNumber_inv (s : Scanner) (c : Nat) (h : s.Inv) : (endNumber s c).Inv := by
  unfold endNumber
  apply stateEndValue_inv
  refine ⟨h.1, ?_, h.2.2⟩
  intro x hx
  simp only [Option.some.injEq] at hx
  subst hx
  exact .num _

theorem state0_inv (s : Scanner) (c : Nat) (h : s.Inv) : (state0 s c).Inv := by
  unfold state0
  split_ifs
  · exact ⟨h.1, h.2.1, by simp only [litOk]⟩
  · exact ⟨h.1, h.2.1, by simp only [litOk]⟩
  · exact endNumber_inv s c h

theorem stateESign_inv (s : Scanner) (c : Nat) (h : s.Inv) : (stateESign s c).Inv := by
  unfold stateESign
  split_ifs
  · exact ⟨h.1, h.2.1, by simp only [litOk]⟩
  · exact error_inv s h

theorem stateWord_inv (want : Nat) (next : Step) (hn : ∀ l, litOk next l) (s : Scanner) (c : Nat)
    (h : s.Inv) : (stateWord want next s c).Inv := by
  unfold stateWord
  split_ifs
  · exact ⟨h.1, h.2.1, hn _⟩
  · exact error_inv s h

theorem stateWordEnd_inv (want : Nat) (v : JSON) (hv : Scanned v) (s : Scanner) (c : Nat)
    (h : s.Inv) : (stateWordEnd want v s c).Inv := by
  unfold stateWordEnd
  split_ifs
  · exact ⟨h.1, by intro x hx; simp only [Option.some.injEq] at hx; subst hx; exact hv, by simp only [litOk]⟩
  · exact error_inv s h

theorem stateInString_inv (s : Scanner) (c : Nat) (h : s.Inv) (hst : s.step = .InString)
    (hl : StringBody s.lit) : (stateInString s c).Inv := by
  unfold stateInString
  split_ifs with h1 h2 h3
  · exact ⟨h.1, by intro x hx; simp only [Option.some.injEq] at hx; subst hx; exact .str _ hl,
      by simp only [litOk]⟩
  · exact ⟨h.1, h.2.1, ⟨s.lit, by rw [h2], hl⟩⟩
  · exact error_inv s h
  · refine ⟨h.1, h.2.1, ?_⟩
    simp only [hst, litOk]
    exact StringBody.append hl (.plain c [] (by omega) h1 h2 .nil)

theorem stateInStringEsc_inv (s : Scanner) (c : Nat) (h : s.Inv)
    (hl : ∃ p, s.lit = p ++ [0x5C] ∧ StringBody p) : (stateInStringEsc s c).Inv := by
  obtain ⟨p, hp, hb⟩ := hl
  unfold stateInStringEsc
  split_ifs with h1 h2
  · refine ⟨h.1, h.2.1, ?_⟩
    show StringBody (s.lit ++ [c])
    rw [hp, List.append_assoc]
    exact StringBody.append hb (.esc c [] h1 .nil)
  · refine ⟨h.1, h.2.1, ⟨p, ?_, hb⟩⟩
    show s.lit ++ [c] = p ++ [0x5C, 0x75]
    rw [hp, h2]; simp
  · exact error_inv s h

theorem next_inv (s : Scanner) (c : Nat) (h : s.Inv) : (s.next c).Inv := by
  have hl := h.2.2
  unfold Scanner.next
  split <;> rename_i hst <;> rw [hst] at hl
  · exact stateBeginValueOrEmpty_inv s c h
  · exact stateBeginValue_inv s c h
  · exact stateBeginStringOrEmpty_inv s c h
  · exact stateBeginString_inv s c h
  · exact stateEndValue_inv s c h
  · exact stateEndTop_inv s c h
  · exact stateInString_inv s c h hst hl
  · exact stateInStringEsc_inv s c h hl
  · obtain ⟨p, hp, hb⟩ := hl
    unfold stateInStringEscHex
    split_ifs with hx
    · exact ⟨h.1, h.2.1, ⟨p, c, by show s.lit ++ [c] = _; rw [hp]; simp, hx, hb⟩⟩
    · exact error_inv s h
  · obtain ⟨p, a, hp, ha, hb⟩ := hl
    unfold stateInStringEscHex
    split_ifs with hx
    · exact ⟨h.1, h.2.1, ⟨p, a, c, by show s.lit ++ [c] = _; rw [hp]; simp, ha, hx, hb⟩⟩
    · exact error_inv s h
  · obtain ⟨p, a, b, hp, ha, hb2, hb⟩ := hl
    unfold stateInStringEscHex
    split_ifs with hx
    · exact ⟨h.1, h.2.1, ⟨p, a, b, c, by show s.lit ++ [c] = _; rw [hp]; simp, ha, hb2, hx, hb⟩⟩
    · exact error_inv s h
  · obtain ⟨p, a, b, d, hp, ha, hb2, hd, hb⟩ := hl
    unfold stateInStringEscHex
    split_ifs with hx
    · refine ⟨h.1, h.2.1, ?_⟩
      show StringBody (s.lit ++ [c])
      rw [hp, List.append_assoc]
      exact StringBody.append hb (.escU a b d c [] ha hb2 hd hx .nil)
    · exact error_inv s h
  · unfold stateNeg
    split_ifs
    · exact ⟨h.1, h.2.1, by simp only [litOk]⟩
    · exact ⟨h.1, h.2.1, by simp only [litOk]⟩
    · exact error_inv s h
  · unfold state1
    split_ifs
    · exact ⟨h.1, h.2.1, by simp only [litOk]⟩
    · exact state0_inv s c h
  · exact state0_inv s c h
  · unfold stateDot
    split_ifs
    · exact ⟨h.1, h.2.1, by simp only [litOk]⟩
    · exact error_inv s h
  · unfold stateDot0
    split_ifs
    · exact ⟨h.1, h.2.1, by simp only [hst, litOk]⟩
    · exact ⟨h.1, h.2.1, by simp only [litOk]⟩
    · exact endNumber_inv s c h
  · unfold stateE
    split_ifs
    · exact ⟨h.1, h.2.1, by simp only [litOk]⟩
    · exact stateESign_inv s c h
  · exact stateESign_inv s c h
  · unfold stateE0
    split_ifs
    · exact ⟨h.1, h.2.1, by simp only [hst, litOk]⟩
    · exact endNumber_inv s c h
  · exact stateWord_inv _ _ (fun _ => by simp only [litOk]) s c h
  · exact stateWord_inv _ _ (fun _ => by simp only [litOk]) s c h
  · exact stateWordEnd_inv _ _ (.bool _) s c h
  · exact stateWord_inv _ _ (fun _ => by simp only [litOk]) s c h
  · exact stateWord_inv _ _ (fun _ => by simp only [litOk]) s c h
  · exact stateWord_inv _ _ (fun _ => by simp only [litOk]) s c h
  · exact stateWordEnd_inv _ _ (.bool _) s c h
  · exact stateWord_inv _ _ (fun _ => by simp only [litOk]) s c h
  · exact stateWord_inv _ _ (fun _ => by simp only [litOk]) s c h
  · exact stateWordEnd_inv _ _ .null s c h
  · exact h

theorem run_inv (data : Bytes) : ∀ s : Scanner, s.Inv → (s.run data).Inv := by
  induction data with
  | nil => intro s h; exact h
  | cons c cs ih => intro s h; exact ih _ (next_inv s c h)

theorem checkValid_scanned (data : Bytes) (j : JSON) (h : checkValid data = some j) :
    Scanned j := by
  have h0 : Scanner.reset.Inv :=
    ⟨by simp [Scanner.reset], by simp [Scanner.reset], by simp only [Scanner.reset, litOk]⟩
  have h1 := run_inv data _ h0
  unfold checkValid at h
  unfold Scanner.eof at h
  by_cases ha : (Scanner.reset.run data).step = .Error
  · simp [ha] at h
  · by_cases hb : (Scanner.reset.run data).endTop = true
    · simp only [ha, hb, if_true, if_false] at h
      exact h1.2.1 j h
    · simp only [ha, hb, if_false, Bool.false_eq_true] at h
      split_ifs at h
      exact (next_inv _ 0x20 h1).2.1 j h

theorem checkValid_key_unquotes (data : Bytes) (ms : List (Bytes × JSON))
    (h : checkValid data = some (.obj ms)) : ∀ m ∈ ms, ∃ key, unquoteBytes m.1 = some key := by
  intro m hm
  have hs := checkValid_scanned data _ h
  cases hs with
  | obj _ hk _ => exact unquoteBytes_body m.1 (hk m hm)

/-! ## Lemmas: the fuel of the loops is enough -/

theorem DecodeRune_size (b : Nat) (rest : Bytes) :
    1 ≤ (DecodeRune (b :: rest)).2 ∧ (DecodeRune (b :: rest)).2 ≤ rest.length + 1 := by
  by_cases hb : b < RuneSelf
  · simp [DecodeRune, hb]
  · rcases hd : DecodeRune (b :: rest) with ⟨c, size⟩
    by_cases hinv : c = RuneError ∧ size = 1
    · simp [hinv.2]
    · obtain ⟨pre, tl, hpt, hlen, hsz, _, _, _, _⟩ := DecodeRune_multibyte b rest c size hb hd hinv
      have := congrArg List.length hpt
      simp only [List.length_cons, List.length_append] at this
      simp only
      omega

theorem length_drop_size (b : Nat) (rest : Bytes) :
    ((b :: rest).drop (DecodeRune (b :: rest)).2).length ≤ rest.length := by
  have h := DecodeRune_size b rest
  simp only [List.length_drop, List.length_cons]
  omega

theorem stringLoop_fuel (N : Nat) :
    ∀ (s : Bytes) (f : Nat), s.length ≤ N → s.length ≤ f →
      stringLoop f s = stringLoop s.length s := by
  induction N with
  | zero =>
    intro s f hN _
    have : s = [] := List.length_eq_zero.mp (by omega)
    subst this
    cases f <;> simp [stringLoop]
  | succ N ih =>
    intro s f hN hf
    rcases s with _ | ⟨b, rest⟩
    · cases f <;> simp [stringLoop]
    · simp only [List.length_cons] at hN hf
      obtain ⟨g, rfl⟩ : ∃ g, f = g + 1 := ⟨f - 1, by omega⟩
      have h1 : stringLoop g rest = stringLoop rest.length rest := ih rest g (by omega) (by omega)
      have hl := length_drop_size b rest
      have h2 : stringLoop g ((b :: rest).drop (DecodeRune (b :: rest)).2)
          = stringLoop rest.length ((b :: rest).drop (DecodeRune (b :: rest)).2) := by
        rw [ih _ g (by omega) (by omega), ih _ rest.length (by omega) hl]
      simp only [List.length_cons]
      rw [stringLoop, stringLoop]
      simp only [h1, h2]

theorem validLoop_fuel (N : Nat) :
    ∀ (s : Bytes) (f : Nat), s.length ≤ N → s.length ≤ f → validLoop f s = Valid s := by
  induction N with
  | zero =>
    intro s f hN _
    have : s = [] := List.length_eq_zero.mp (by omega)
    subst this
    cases f <;> simp [validLoop, Valid]
  | succ N ih =>
    intro s f hN hf
    rcases s with _ | ⟨b, rest⟩
    · cases f <;> simp [validLoop, Valid]
    · simp only [List.length_cons] at hN hf
      obtain ⟨g, rfl⟩ : ∃ g, f = g + 1 := ⟨f - 1, by omega⟩
      have hl := length_drop_size b rest
      have h2 : validLoop g ((b :: rest).drop (DecodeRune (b :: rest)).2)
          = validLoop rest.length ((b :: rest).drop (DecodeRune (b :: rest)).2) := by
        rw [ih _ g (by omega) (by omega), ih _ rest.length (by omega) hl]
      unfold Valid
      simp only [List.length_cons]
      rw [validLoop, validLoop]
      simp only [h2]

theorem foldNameLoop_fuel (N : Nat) :
    ∀ (s : Bytes) (f : Nat), s.length ≤ N → s.length ≤ f → foldNameLoop f s = foldName s := by
  induction N with
  | zero =>
    intro s f hN _
    have : s = [] := List.length_eq_zero.mp (by omega)
    subst this
    cases f <;> simp [foldNameLoop, foldName]
  | succ N ih =>
    intro s f hN hf
    rcases s with _ | ⟨b, rest⟩
    · cases f <;> simp [foldNameLoop, foldName]
    · simp only [List.length_cons] at hN hf
      obtain ⟨g, rfl⟩ : ∃ g, f = g + 1 := ⟨f - 1, by omega⟩
      have h0 : ∀ t : Bytes, t.length ≤ rest.length → foldNameLoop g t = foldNameLoop rest.length t := by
        intro t ht
        rw [ih t g (by omega) (by omega), ih t rest.length (by omega) ht]
      have h1 := h0 rest (le_refl _)
      have h2 := h0 _ (length_drop_size b rest)
      unfold foldName
      simp only [List.length_cons]
      rw [foldNameLoop, foldNameLoop]
      simp only [h1, h2]

theorem unquoteLoop_fuel (N : Nat) :
    ∀ (s : Bytes) (f : Nat), s.length ≤ N → s.length ≤ f → unquoteLoop f s = unquoteBytes s := by
  induction N with
  | zero =>
    intro s f hN _
    have : s = [] := List.length_eq_zero.mp (by omega)
    subst this
    cases f <;> simp [unquoteLoop, unquoteBytes]
  | succ N ih =>
    intro s f hN hf
    rcases s with _ | ⟨c, rest⟩
    · cases f <;> simp [unquoteLoop, unquoteBytes]
    · simp only [List.length_cons] at hN hf
      obtain ⟨g, rfl⟩ : ∃ g, f = g + 1 := ⟨f - 1, by omega⟩
      have h0 : ∀ t : Bytes, t.length ≤ rest.length → unquoteLoop g t = unquoteLoop rest.length t := by
        intro t ht
        rw [ih t g (by omega) (by omega), ih t rest.length (by omega) ht]
      unfold unquoteBytes
      simp only [List.length_cons]
      rw [unquoteLoop.eq_def, unquoteLoop.eq_def (rest.length + 1)]
      simp only
      by_cases hc : c = 0x5C
      · simp only [hc, if_true]
        rcases rest with _ | ⟨e, rest2⟩
        · rfl
        · simp only
          have h1 := h0 rest2 (by simp)
          have h6 := h0 ((0x5C :: e :: rest2).drop 6) (by simp; omega)
          have h12 := h0 ((0x5C :: e :: rest2).drop 12) (by simp; omega)
          simp only [h1, h6, h12]
      · simp only [hc, if_false]
        have h1 := h0 rest (le_refl _)
        have h2 := h0 _ (length_drop_size c rest)
        simp only [h1, h2]

theorem formatBits_fuel (f : Nat) : ∀ g u : Nat, u < f → u < g → formatBits f u = formatBits g u := by
  induction f with
  | zero => intro g u h; omega
  | succ n ih =>
    intro g u hf hg
    obtain ⟨k, rfl⟩ : ∃ k, g = k + 1 := ⟨g - 1, by omega⟩
    rw [formatBits, formatBits]
    by_cases hu : u < 10
    · simp only [hu, if_true]
    · simp only [hu, if_false]
      rw [ih k (u / 10) (by omega) (by omega)]

/-! ## Lemmas: the decoder never meets a literal it cannot unquote -/

theorem saveError_ne_phase (d : decodeState) (e : JSONError) (he : e ≠ .phaseError)
    (hd : d.savedError ≠ some .phaseError) : (d.saveError e).savedError ≠ some .phaseError := by
  unfold decodeState.saveError
  split
  · simp only [ne_eq, Option.some.injEq]; exact he
  · exact hd

theorem storeField_ne_phase (f : Field) (v : JSON) (d : decodeState) (hv : Scanned v)
    (hd : d.savedError ≠ some .phaseError) : (storeField f v d).savedError ≠ some .phaseError := by
  have hs := fun e he => saveError_ne_phase d e he hd
  cases hv with
  | null => exact hd
  | bool b =>
    simp only [storeField]
    split
    · exact hd
    · exact hs _ (by decide)
  | num lit =>
    simp only [storeField]
    split
    · split
      · exact hd
      · exact hs _ (by decide)
    · exact hs _ (by decide)
  | str lit hb =>
    obtain ⟨t, ht⟩ := unquoteBytes_body lit hb
    simp only [storeField, ht]
    split
    · exact hd
    · exact hs _ (by decide)
  | arr xs _ => exact hs _ (by decide)
  | obj ms _ _ => exact hs _ (by decide)

theorem object_ne_phase (ms : List (Bytes × JSON)) :
    ∀ d : decodeState, (∀ m ∈ ms, StringBody m.1) → (∀ m ∈ ms, Scanned m.2) →
      d.savedError ≠ some .phaseError → (d.object ms).savedError ≠ some .phaseError := by
  induction ms with
  | nil => intro d _ _ hd; exact hd
  | cons m ms ih =>
    intro d hk hv hd
    simp only [decodeState.object, List.foldl_cons] at ih ⊢
    apply ih _ (fun x hx => hk x (List.mem_cons_of_mem _ hx))
      (fun x hx => hv x (List.mem_cons_of_mem _ hx))
    obtain ⟨key, hkey⟩ := unquoteBytes_body m.1 (hk m (List.mem_cons_self _ _))
    simp only [objectMember, hkey]
    split
    · exact hd
    · exact storeField_ne_phase _ _ d (hv m (List.mem_cons_self _ _)) hd

theorem Unmarshal_ne_phase (data : Bytes) (v : ServerDrives) :
    (Unmarshal data v).2 ≠ some .phaseError := by
  unfold Unmarshal
  rcases hc : checkValid data with _ | j
  · simp
  · have hj := checkValid_scanned data j hc
    have h0 : (⟨v, none⟩ : decodeState).savedError ≠ some .phaseError := by simp
    have hs := fun e he => saveError_ne_phase ⟨v, none⟩ e he h0
    simp only
    cases hj with
    | null => exact h0
    | bool b => exact hs _ (by decide)
    | num lit => exact hs _ (by decide)
    | str lit hb =>
      obtain ⟨t, ht⟩ := unquoteBytes_body lit hb
      simp only [decodeState.value, ht]
      exact hs _ (by decide)
    | arr xs _ => exact hs _ (by decide)
    | obj ms hk hv => exact object_ne_phase ms _ hk hv h0

/-! ## The scanner on nested arrays: the limit maxNestingDepth -/

theorem next_Error (s : Scanner) (c : Nat) (h : s.step = .Error) : s.next c = s := by
  unfold Scanner.next
  rw [h]

theorem run_Error (data : Bytes) : ∀ s : Scanner, s.step = .Error → s.run data = s := by
  induction data with
  | nil => intro s _; rfl
  | cons c cs ih =>
    intro s h
    rw [run_cons, next_Error s c h]
    exact ih s h

theorem next_open (st : Step) (ps : List Frame) (l : Bytes) (v : Option JSON) (e : Bool)
    (hst : st = .BeginValue ∨ st = .BeginValueOrEmpty) (h : ps.length < maxNestingDepth) :
    Scanner.next ⟨st, ps, l, v, e⟩ 0x5B = ⟨.BeginValueOrEmpty, .arrayValue [] :: ps, l, v, e⟩ := by
  have h2 : (Frame.arrayValue [] :: ps).length ≤ maxNestingDepth := h
  have hsp : isSpace 0x5B = false := by decide
  rcases hst with rfl | rfl
  · simp only [Scanner.next, stateBeginValue, hsp, Scanner.pushParseState]
    rw [if_pos h2]
    simp
  · simp only [Scanner.next, stateBeginValueOrEmpty, stateBeginValue, hsp, Scanner.pushParseState]
    rw [if_pos h2]
    simp

theorem next_open_full (st : Step) (ps : List Frame) (l : Bytes) (v : Option JSON) (e : Bool)
    (hst : st = .BeginValue ∨ st = .BeginValueOrEmpty) (h : maxNestingDepth ≤ ps.length) :
    (Scanner.next ⟨st, ps, l, v, e⟩ 0x5B).step = .Error := by
  have h2 : ¬ (Frame.arrayValue [] :: ps).length ≤ maxNestingDepth := by
    simp only [List.length_cons]
    omega
  have hsp : isSpace 0x5B = false := by decide
  rcases hst with rfl | rfl
  · simp only [Scanner.next, stateBeginValue, hsp, Scanner.pushParseState]
    rw [if_neg h2]
    simp [Scanner.error]
  · simp only [Scanner.next, stateBeginValueOrEmpty, stateBeginValue, hsp, Scanner.pushParseState]
    rw [if_neg h2]
    simp [Scanner.error]

theorem replicate_append_cons (n : Nat) (a : Frame) (ps : List Frame) :
    List.replicate n a ++ a :: ps = List.replicate (n + 1) a ++ ps := by
  rw [List.replicate_succ', List.append_assoc]
  rfl

theorem run_opens (n : Nat) : ∀ (st : Step) (ps : List Frame) (l : Bytes) (v : Option JSON)
    (e : Bool), (st = .BeginValue ∨ st = .BeginValueOrEmpty) →
    ps.length + (n + 1) ≤ maxNestingDepth →
    Scanner.run ⟨st, ps, l, v, e⟩ (List.replicate (n + 1) 0x5B)
      = ⟨.BeginValueOrEmpty, List.replicate (n + 1) (.arrayValue []) ++ ps, l, v, e⟩ := by
  induction n with
  | zero =>
    intro st ps l v e hst h
    show Scanner.run _ [0x5B] = _
    rw [run_cons, next_open st ps l v e hst (by omega)]
    rfl
  | succ n ih =>
    intro st ps l v e hst h
    rw [List.replicate_succ, run_cons, next_open st ps l v e hst (by omega),
      ih _ _ _ _ _ (Or.inr rfl) (by simp only [List.length_cons]; omega),
      replicate_append_cons]

theorem run_too_deep (n : Nat) (st : Step) (ps : List Frame) (l : Bytes) (v : Option JSON)
    (e : Bool) (hst : st = .BeginValue ∨ st = .BeginValueOrEmpty)
    (h : ps.length + n = maxNestingDepth) (rest : Bytes) :
    (Scanner.run ⟨st, ps, l, v, e⟩ (List.replicate (n + 1) 0x5B ++ rest)).step = .Error := by
  cases n with
  | zero =>
    show (Scanner.run _ (0x5B :: rest)).step = _
    rw [run_cons]
    have h1 := next_open_full st ps l v e hst (by omega)
    rw [run_Error rest _ h1]
    exact h1
  | succ k =>
    rw [List.replicate_succ', List.append_assoc, run_append,
      run_opens k st ps l v e hst (by omega)]
    show (Scanner.run _ (0x5B :: rest)).step = _
    rw [run_cons]
    have h1 := next_open_full .BeginValueOrEmpty
      (List.replicate (k + 1) (.arrayValue []) ++ ps) l v e (Or.inr rfl)
      (by simp only [List.length_append, List.length_replicate]; omega)
    rw [run_Error rest _ h1]
    exact h1

theorem pop_val (st : Step) (ps : List Frame) (l : Bytes) (v : Option JSON)
    (f : Frame) (j : JSON) :
    Scanner.popParseState ⟨st, f :: ps, l, v, false⟩ j
      = Scanner.popParseState ⟨.EndValue, .arrayValue [] :: ps, l, none, false⟩ j := by
  cases ps <;> rfl

theorem run_closes (n : Nat) : ∀ (ps : List Frame) (l : Bytes) (v : JSON),
    ∃ j, Scanner.run ⟨.EndValue, List.replicate (n + 1) (.arrayValue []) ++ ps, l, some v, false⟩
        (List.replicate (n + 1) 0x5D)
      = Scanner.popParseState ⟨.EndValue, .arrayValue [] :: ps, l, none, false⟩ j := by
  induction n with
  | zero =>
    intro ps l v
    refine ⟨.arr ([] ++ [v]), ?_⟩
    show Scanner.run ⟨.EndValue, .arrayValue [] :: ps, l, some v, false⟩ [0x5D] = _
    rw [run_cons, run_nil]
    have hsp : isSpace 0x5D = false := by decide
    simp only [Scanner.next, stateEndValue, hsp]
    exact pop_val _ _ _ _ _ _
  | succ n ih =>
    intro ps l v
    obtain ⟨j, hj⟩ := ih ps l (.arr ([] ++ [v]))
    refine ⟨j, ?_⟩
    rw [List.replicate_succ (n := n + 1) (a := (0x5D : Nat)), run_cons, ← hj]
    have hsp : isSpace 0x5D = false := by decide
    rw [List.replicate_succ (n := n + 1) (a := Frame.arrayValue []), List.cons_append]
    simp only [Scanner.next, stateEndValue, hsp]
    rw [List.replicate_succ, List.cons_append]
    rfl

theorem run_nested (n : Nat) (st : Step) (ps : List Frame) (l : Bytes) (v : Option JSON)
    (hst : st = .BeginValue ∨ st = .BeginValueOrEmpty)
    (h : ps.length + (n + 1) ≤ maxNestingDepth) :
    ∃ j, Scanner.run ⟨st, ps, l, v, false⟩ (nested (n + 1))
      = Scanner.popParseState ⟨.EndValue, .arrayValue [] :: ps, l, none, false⟩ j := by
  have hsp : isSpace 0x5D = false := by decide
  unfold nested
  rw [run_append, run_opens n st ps l v false hst h]
  cases n with
  | zero =>
    refine ⟨.arr [], ?_⟩
    show Scanner.run ⟨.BeginValueOrEmpty, .arrayValue [] :: ps, l, v, false⟩ [0x5D] = _
    rw [run_cons, run_nil]
    simp only [Scanner.next, stateBeginValueOrEmpty, hsp]
    exact pop_val _ _ _ _ _ _
  | succ k =>
    obtain ⟨j, hj⟩ := run_closes k ps l (.arr [])
    refine ⟨j, ?_⟩
    rw [List.replicate_succ (n := k + 1) (a := (0x5D : Nat)), run_cons, ← hj]
    rw [List.replicate_succ (n := k + 1) (a := Frame.arrayValue []), List.cons_append]
    simp only [Scanner.next, stateBeginValueOrEmpty, hsp]
    rw [List.replicate_succ, List.cons_append]
    rfl

theorem checkValid_nested (n : Nat) (h : n + 1 ≤ maxNestingDepth) :
    ∃ j, checkValid (nested (n + 1)) = some j := by
  obtain ⟨j, hj⟩ := run_nested n .BeginValue [] [] none (Or.inl rfl) (by simpa using h)
  refine ⟨j, ?_⟩
  unfold checkValid Scanner.reset
  rw [hj]
  rfl

theorem run_member_open :
    Scanner.reset.run (ascii "\x7b\"x\":")
      = ⟨.BeginValue, [.objectValue [] (ascii "x")], ascii "x", some (.str (ascii "x")), false⟩ := by
  rfl

theorem checkValid_member_nested (n : Nat) (h : n + 2 ≤ maxNestingDepth) :
    ∃ j, checkValid (ascii "\x7b\"x\":" ++ nested (n + 1) ++ ascii "\x7d")
      = some (.obj [(ascii "x", j)]) := by
  obtain ⟨j, hj⟩ := run_nested n .BeginValue [.objectValue [] (ascii "x")] (ascii "x")
    (some (.str (ascii "x"))) (Or.inl rfl) (by simp only [List.length_singleton]; omega)
  refine ⟨j, ?_⟩
  unfold checkValid
  rw [run_append, run_append, run_member_open, hj]
  rfl

theorem checkValid_member_too_deep (rest : Bytes) :
    checkValid (ascii "\x7b\"x\":" ++ nested maxNestingDepth ++ rest) = none := by
  have h := run_too_deep 9999 .BeginValue [.objectValue [] (ascii "x")] (ascii "x")
    (some (.str (ascii "x"))) false (Or.inl rfl) (by decide)
    (List.replicate maxNestingDepth 0x5D ++ rest)
  unfold checkValid nested
  rw [List.append_assoc, List.append_assoc, run_append, run_member_open]
  have h2 : (Scanner.run ⟨.BeginValue, [.objectValue [] (ascii "x")], ascii "x",
      some (.str (ascii "x")), false⟩
      (List.replicate maxNestingDepth 0x5B ++ (List.replicate maxNestingDepth 0x5D ++ rest))).step
      = .Error := h
  unfold Scanner.eof
  rw [if_pos h2]

theorem trimNUL_ends (a z : Nat) (mid : Bytes) (ha : a ≠ 0) (hz : z ≠ 0) :
    trimNUL (a :: (mid ++ [z])) = a :: (mid ++ [z]) := by
  unfold trimNUL
  simp [List.dropWhile, ha, hz]

theorem trimNUL_member (mid : Bytes) :
    trimNUL (ascii "\x7b\"x\":" ++ mid ++ ascii "\x7d") = ascii "\x7b\"x\":" ++ mid ++ ascii "\x7d" := by
  exact trimNUL_ends 0x7B 0x7D (ascii "\"x\":" ++ mid) (by decide) (by decide)

/-! ## Lemmas: what the decoder stores in a string field is valid UTF-8 -/

theorem DecodeRune_EncodeRune (r : Nat) (t : Bytes) :
    (DecodeRune (EncodeRune r ++ t)).2 = (EncodeRune r).length ∧
      ¬ ((DecodeRune (EncodeRune r ++ t)).1 = RuneError ∧ (EncodeRune r).length = 1) := by
  unfold EncodeRune
  by_cases h1 : r ≤ 0x7F
  · have : r < RuneSelf := by simp only [RuneSelf]; omega
    simp only [h1, if_true, List.singleton_append, DecodeRune, this, List.length_singleton,
      true_and, and_true]
    simp only [RuneError]; omega
  · by_cases h2 : r ≤ 0x7FF
    · simp only [h1, h2, if_true, if_false]
      have hf : first (0xC0 + r / 64) = some (2, 0x80, 0xBF) := by
        have : 0xC2 ≤ 0xC0 + r / 64 ∧ 0xC0 + r / 64 ≤ 0xDF := by omega
        simp [first, this]
      have hb : ¬ (0xC0 + r / 64 < RuneSelf) := by simp only [RuneSelf]; omega
      have hc : ¬ (0x80 + r % 64 < 0x80 ∨ 0xBF < 0x80 + r % 64) := by omega
      have l2 : ¬ (t.length + 1 + 1 < 2) := by omega
      have d0 : ¬ (191 < 128 + r % 64) := by omega
      simp [DecodeRune, hb, hf, hc, l2, d0]
    · by_cases h3 : 0x10FFFF < r ∨ (0xD800 ≤ r ∧ r ≤ 0xDFFF)
      · simp only [h1, h2, h3, if_true, if_false]
        have l3 : ¬ (t.length + 1 + 1 + 1 < 3) := by omega
        simp [DecodeRune, RuneSelf, first, l3]
      · by_cases h4 : r ≤ 0xFFFF
        · simp only [h1, h2, h3, h4, if_true, if_false]
          have hb : ¬ (0xE0 + r / 4096 < RuneSelf) := by simp only [RuneSelf]; omega
          obtain ⟨lo, hi, hf, hlo, hhi⟩ : ∃ lo hi, first (0xE0 + r / 4096) = some (3, lo, hi) ∧
              lo ≤ 0x80 + r / 64 % 64 ∧ 0x80 + r / 64 % 64 ≤ hi := by
            unfold first
            have n1 : ¬ (0xC2 ≤ 0xE0 + r / 4096 ∧ 0xE0 + r / 4096 ≤ 0xDF) := by omega
            simp only [n1, if_false]
            by_cases k1 : 0xE0 + r / 4096 = 0xE0
            · exact ⟨0xA0, 0xBF, by simp [k1], by omega, by omega⟩
            · by_cases k2 : 0xE1 ≤ 0xE0 + r / 4096 ∧ 0xE0 + r / 4096 ≤ 0xEC
              · exact ⟨0x80, 0xBF, by simp [k1, k2], by omega, by omega⟩
              · by_cases k3 : 0xE0 + r / 4096 = 0xED
                · exact ⟨0x80, 0x9F, by simp [k1, k2, k3], by omega, by omega⟩
                · have k4 : 0xEE ≤ 0xE0 + r / 4096 ∧ 0xE0 + r / 4096 ≤ 0xEF := by omega
                  exact ⟨0x80, 0xBF, by simp [k1, k2, k3, k4], by omega, by omega⟩
          have hc1 : ¬ (0x80 + r / 64 % 64 < lo ∨ hi < 0x80 + r / 64 % 64) := by omega
          have hc2 : ¬ (0x80 + r % 64 < 0x80 ∨ 0xBF < 0x80 + r % 64) := by omega
          have l3 : ¬ (t.length + 1 + 1 + 1 < 3) := by omega
          have d0 : ¬ (191 < 128 + r % 64) := by omega
          simp [DecodeRune, hb, hf, hc1, hc2, l3, d0]
        · simp only [h1, h2, h3, h4, if_false]
          have hb : ¬ (0xF0 + r / 262144 < RuneSelf) := by simp only [RuneSelf]; omega
          obtain ⟨lo, hi, hf, hlo, hhi⟩ : ∃ lo hi, first (0xF0 + r / 262144) = some (4, lo, hi) ∧
              lo ≤ 0x80 + r / 4096 % 64 ∧ 0x80 + r / 4096 % 64 ≤ hi := by
            unfold first
            have n1 : ¬ (0xC2 ≤ 0xF0 + r / 262144 ∧ 0xF0 + r / 262144 ≤ 0xDF) := by omega
            have n2 : ¬ (0xF0 + r / 262144 = 0xE0) := by omega
            have n3 : ¬ (0xE1 ≤ 0xF0 + r / 262144 ∧ 0xF0 + r / 262144 ≤ 0xEC) := by omega
            have n4 : ¬ (0xF0 + r / 262144 = 0xED) := by omega
            have n5 : ¬ (0xEE ≤ 0xF0 + r / 262144 ∧ 0xF0 + r / 262144 ≤ 0xEF) := by omega
            simp only [n1, n2, n3, n4, n5, if_false]
            by_cases k1 : 0xF0 + r / 262144 = 0xF0
            · exact ⟨0x90, 0xBF, by simp [k1], by omega, by omega⟩
            · by_cases k2 : 0xF1 ≤ 0xF0 + r / 262144 ∧ 0xF0 + r / 262144 ≤ 0xF3
              · exact ⟨0x80, 0xBF, by simp [k1, k2], by omega, by omega⟩
              · have k3 : 0xF0 + r / 262144 = 0xF4 := by omega
                exact ⟨0x80, 0x8F, by simp [k1, k2, k3], by omega, by omega⟩
          have hc1 : ¬ (0x80 + r / 4096 % 64 < lo ∨ hi < 0x80 + r / 4096 % 64) := by omega
          have hc2 : ¬ (0x80 + r / 64 % 64 < 0x80 ∨ 0xBF < 0x80 + r / 64 % 64) := by omega
          have hc3 : ¬ (0x80 + r % 64 < 0x80 ∨ 0xBF < 0x80 + r % 64) := by omega
          have l4 : ¬ (t.length + 1 + 1 + 1 + 1 < 4) := by omega
          have d0 : ¬ (191 < 128 + r % 64) := by omega
          have d1 : ¬ (191 < 128 + r / 64 % 64) := by omega
          simp [DecodeRune, hb, hf, hc1, hc2, hc3, l4, d0, d1]

theorem EncodeRune_length_pos (r : Nat) : 1 ≤ (EncodeRune r).length := by
  unfold EncodeRune
  split_ifs <;> simp

theorem Valid_EncodeRune_append (r : Nat) (t : Bytes) : Valid (EncodeRune r ++ t) = Valid t := by
  obtain ⟨hd, hinv⟩ := DecodeRune_EncodeRune r t
  have hpos := EncodeRune_length_pos r
  rcases he : EncodeRune r with _ | ⟨p0, pre⟩
  · rw [he] at hpos; simp at hpos
  · rw [he] at hd hinv
    rcases hdr : DecodeRune (p0 :: pre ++ t) with ⟨c, size⟩
    rw [hdr] at hd hinv
    simp only [List.length_cons] at hd hinv
    subst hd
    unfold Valid
    simp only [List.cons_append, List.length_cons, List.length_append] at hdr ⊢
    rw [validLoop]
    simp only [hdr, hinv, if_false]
    have hdrop : (p0 :: (pre ++ t)).drop (pre.length + 1) = t := by
      simp
    rw [hdrop]
    exact validLoop_fuel t.length t (pre.length + t.length) (le_refl _) (by omega)

theorem Valid_cons_ascii (c : Nat) (t : Bytes) (hc : c < 0x80) : Valid (c :: t) = Valid t := by
  have h := Valid_EncodeRune_append c t
  have he : EncodeRune c = [c] := by
    unfold EncodeRune
    simp only [show c ≤ 0x7F by omega, if_true]
  rw [he] at h
  exact h

theorem Valid_unquoteLoop (fuel : Nat) :
    ∀ (s t : Bytes), unquoteLoop fuel s = some t → Valid t = true := by
  induction fuel with
  | zero =>
    intro s t h
    simp only [unquoteLoop] at h
    split_ifs at h
    simp only [Option.some.injEq] at h
    subst h
    rfl
  | succ n ih =>
    intro s t h
    have step_ascii : ∀ (x : Nat) (s2 : Bytes), x < 0x80 →
        (unquoteLoop n s2).map (fun u => x :: u) = some t → Valid t = true := by
      intro x s2 hx hm
      rcases hu : unquoteLoop n s2 with _ | u
      · rw [hu] at hm; simp at hm
      · rw [hu] at hm
        simp only [Option.map_some', Option.some.injEq] at hm
        subst hm
        rw [Valid_cons_ascii x u hx]
        exact ih s2 u hu
    have step_rune : ∀ (x : Nat) (s2 : Bytes),
        (unquoteLoop n s2).map (fun u => EncodeRune x ++ u) = some t → Valid t = true := by
      intro x s2 hm
      rcases hu : unquoteLoop n s2 with _ | u
      · rw [hu] at hm; simp at hm
      · rw [hu] at hm
        simp only [Option.map_some', Option.some.injEq] at hm
        subst hm
        rw [Valid_EncodeRune_append x u]
        exact ih s2 u hu
    rw [unquoteLoop.eq_def] at h
    simp only at h
    rcases s with _ | ⟨c, rest⟩
    · simp only [Option.some.injEq] at h
      subst h
      rfl
    · simp only at h
      by_cases hc : c = 0x5C
      · simp only [hc, if_true] at h
        rcases rest with _ | ⟨e, rest2⟩
        · simp at h
        · simp only at h
          by_cases e1 : e = 0x22 ∨ e = 0x5C ∨ e = 0x2F ∨ e = 0x27
          · rw [if_pos e1] at h
            exact step_ascii e rest2 (by omega) h
          rw [if_neg e1] at h
          by_cases e2 : e = 0x62
          · rw [if_pos e2] at h; exact step_ascii _ rest2 (by omega) h
          rw [if_neg e2] at h
          by_cases e3 : e = 0x66
          · rw [if_pos e3] at h; exact step_ascii _ rest2 (by omega) h
          rw [if_neg e3] at h
          by_cases e4 : e = 0x6E
          · rw [if_pos e4] at h; exact step_ascii _ rest2 (by omega) h
          rw [if_neg e4] at h
          by_cases e5 : e = 0x72
          · rw [if_pos e5] at h; exact step_ascii _ rest2 (by omega) h
          rw [if_neg e5] at h
          by_cases e6 : e = 0x74
          · rw [if_pos e6] at h; exact step_ascii _ rest2 (by omega) h
          rw [if_neg e6] at h
          by_cases e7 : e = 0x75
          · rw [if_pos e7] at h
            rcases hg : getu4 (0x5C :: e :: rest2) with _ | rr
            · rw [hg] at h; simp at h
            · rw [hg] at h
              simp only at h
              split_ifs at h
              · exact step_rune _ _ h
              · exact step_rune _ _ h
              · exact step_rune _ _ h
          · rw [if_neg e7] at h; simp at h
      · simp only [hc, if_false] at h
        by_cases c1 : c = 0x22 ∨ c < 0x20
        · rw [if_pos c1] at h; simp at h
        rw [if_neg c1] at h
        by_cases c2 : c < RuneSelf
        · rw [if_pos c2] at h
          exact step_ascii c rest (by simpa [RuneSelf] using c2) h
        · rw [if_neg c2] at h
          exact step_rune _ _ h

theorem Valid_unquoteBytes (s t : Bytes) (h : unquoteBytes s = some t) : Valid t = true :=
  Valid_unquoteLoop s.length s t h

theorem storeField_valid (f : Field) (v : JSON) (d : decodeState) (hd : d.res.ValidUTF8) :
    (storeField f v d).res.ValidUTF8 := by
  have hs : ∀ e, (d.saveError e).res = d.res := by
    intro e; unfold decodeState.saveError; split <;> rfl
  obtain ⟨h1, h2, h3, h4, h5⟩ := hd
  cases v with
  | null => exact ⟨h1, h2, h3, h4, h5⟩
  | arr xs => simp only [storeField, hs]; exact ⟨h1, h2, h3, h4, h5⟩
  | obj ms => simp only [storeField, hs]; exact ⟨h1, h2, h3, h4, h5⟩
  | bool b => cases f <;> simp only [storeField, Field.kind, hs] <;> exact ⟨h1, h2, h3, h4, h5⟩
  | num lit =>
    cases f <;> simp only [storeField, Field.kind, hs] <;>
      first
      | exact ⟨h1, h2, h3, h4, h5⟩
      | (split
         · exact ⟨h1, h2, h3, h4, h5⟩
         · rw [hs]; exact ⟨h1, h2, h3, h4, h5⟩)
  | str lit =>
    simp only [storeField]
    rcases hu : unquoteBytes lit with _ | s
    · simp only [hs]; exact ⟨h1, h2, h3, h4, h5⟩
    · have hv := Valid_unquoteBytes lit s hu
      cases f <;> simp only [Field.kind, hs] <;>
        first
        | exact ⟨h1, h2, h3, h4, h5⟩
        | exact ⟨hv, h2, h3, h4, h5⟩
        | exact ⟨h1, hv, h3, h4, h5⟩
        | exact ⟨h1, h2, hv, h4, h5⟩
        | exact ⟨h1, h2, h3, hv, h5⟩
        | exact ⟨h1, h2, h3, h4, hv⟩

theorem value_valid (j : JSON) (d : decodeState) (hd : d.res.ValidUTF8) :
    (d.value j).res.ValidUTF8 := by
  have hs : ∀ (d : decodeState) e, (d.saveError e).res = d.res := by
    intro d e; unfold decodeState.saveError; split <;> rfl
  cases j with
  | obj ms =>
    simp only [decodeState.value, decodeState.object]
    induction ms generalizing d with
    | nil => exact hd
    | cons m ms ih =>
      rw [List.foldl_cons]
      apply ih
      unfold objectMember
      split
      · rw [hs]; exact hd
      · split
        · exact hd
        · exact storeField_valid _ _ d hd
  | null => exact hd
  | str lit =>
    simp only [decodeState.value]
    split <;> rw [hs] <;> exact hd
  | bool b => simp only [decodeState.value, hs]; exact hd
  | num lit => simp only [decodeState.value, hs]; exact hd
  | arr xs => simp only [decodeState.value, hs]; exact hd

theorem UnmarshalBinary_valid (m res : ServerDrives) (b : Bytes)
    (h : UnmarshalBinary m b = (res, none)) : res.ValidUTF8 := by
  rcases hR : ReadJSON b ServerDrives.zero with ⟨res2, _ | err⟩
  · simp only [UnmarshalBinary, hR, Prod.mk.injEq, and_true] at h
    subst h
    unfold ReadJSON Unmarshal at hR
    split at hR
    · simp at hR
    · simp only [Prod.mk.injEq] at hR
      rw [← hR.1]
      exact value_valid _ _ ⟨rfl, rfl, rfl, rfl, rfl⟩
  · simp [UnmarshalBinary, hR] at h

/-! ## Lemmas: the decoder -/

theorem get_set_ne (r : ServerDrives) (f g : Field) (v : Value) (h : g ≠ f) :
    (r.set f v).get g = r.get g := by
  cases f <;> cases g <;> cases v <;> first | rfl | exact absurd rfl h

theorem get_set_self (r r2 : ServerDrives) (f : Field) : (r.set f (r2.get f)).get f = r2.get f := by
  cases f <;> rfl

theorem ServerDrives.ext_get (a b : ServerDrives) (h : ∀ g, a.get g = b.get g) : a = b := by
  have h1 := h .AvailableSpace
  have h2 := h .DrivePath
  have h3 := h .Endpoint
  have h4 := h .Healing
  have h5 := h .Model
  have h6 := h .RootDisk
  have h7 := h .State
  have h8 := h .TotalSpace
  have h9 := h .UsedSpace
  have h10 := h .UUID
  cases a; cases b
  simp only [ServerDrives.get, Value.int.injEq, Value.str.injEq, Value.bool.injEq] at *
  simp [*]

theorem empty_eq_zero (r : ServerDrives) (g : Field) (h : isEmptyValue (r.get g) = true) :
    r.get g = ServerDrives.zero.get g := by
  cases g <;> simp [ServerDrives.get, isEmptyValue, ServerDrives.zero] at h ⊢ <;> exact h

theorem unquoteBytes_name (f : Field) : unquoteBytes f.name = some f.name := by
  cases f <;> rfl

theorem lookupField_name (f : Field) : lookupField f.name = some f := by
  cases f <;> rfl

theorem toValue_jsonOf (v : Value) (h : v.isText) : (jsonOf v).toValue = some v := by
  cases v with
  | int n => simp [jsonOf, JSON.toValue, ParseInt_FormatInt n h]
  | str s => simp [jsonOf, JSON.toValue, unquoteBytes_stringLoop s h]
  | bool b => rfl

theorem storeField_jsonOf (r : ServerDrives) (f : Field) (d : decodeState)
    (h : (r.get f).isText) :
    storeField f (jsonOf (r.get f)) d = { d with res := d.res.set f (r.get f) } := by
  cases f <;>
    first
    | (simp only [ServerDrives.get] at h ⊢
       simp only [jsonOf, storeField, Field.kind, ParseInt_FormatInt _ h])
    | (simp only [ServerDrives.get] at h ⊢
       simp only [jsonOf, storeField, Field.kind, unquoteBytes_stringLoop _ h])
    | rfl

theorem objectMember_jsonOf (r : ServerDrives) (f : Field) (d : decodeState)
    (h : (r.get f).isText) :
    objectMember d (f.name, jsonOf (r.get f)) = { d with res := d.res.set f (r.get f) } := by
  simp only [objectMember, unquoteBytes_name, lookupField_name, storeField_jsonOf r f d h]

theorem object_members (r : ServerDrives) (P : List Field) :
    ∀ d : decodeState, (∀ f ∈ P, (r.get f).isText) →
      d.object (P.map (fun f => (f.name, jsonOf (r.get f))))
        = { d with res := P.foldl (fun acc f => acc.set f (r.get f)) d.res } := by
  induction P with
  | nil => intro d _; rfl
  | cons f fs ih =>
    intro d h
    simp only [decodeState.object, List.map_cons, List.foldl_cons] at ih ⊢
    rw [objectMember_jsonOf r f d (h f (List.mem_cons_self _ _)),
      ih _ (fun g hg => h g (List.mem_cons_of_mem _ hg))]

theorem get_foldl_set (r : ServerDrives) (P : List Field) (g : Field) :
    ∀ a : ServerDrives,
      (P.foldl (fun acc f => acc.set f (r.get f)) a).get g = if g ∈ P then r.get g else a.get g := by
  induction P with
  | nil => intro a; simp
  | cons f fs ih =>
    intro a
    rw [List.foldl_cons, ih]
    by_cases hg : g ∈ fs
    · simp [hg]
    · by_cases hgf : g = f
      · subst hgf
        simp [hg, get_set_self]
      · simp [hg, hgf, get_set_ne _ _ _ _ hgf]

theorem mem_fields (g : Field) : g ∈ fields := by
  cases g <;> decide

theorem decode_structEncode (r : ServerDrives) (h : ∀ f, (r.get f).isText) :
    Unmarshal (structEncode r) ServerDrives.zero = (r, none) := by
  unfold Unmarshal
  rw [checkValid_structEncode]
  simp only [decodeState.value, membersOf]
  rw [object_members r (present r) _ (fun f _ => h f)]
  simp only [Prod.mk.injEq, and_true]
  apply ServerDrives.ext_get
  intro g
  rw [get_foldl_set]
  by_cases hg : g ∈ present r
  · simp [hg]
  · simp only [hg, if_false]
    have : isEmptyValue (r.get g) = true := by
      by_contra hc
      apply hg
      unfold present
      rw [List.mem_filter]
      exact ⟨mem_fields g, by simpa using hc⟩
    exact (empty_eq_zero r g this).symm

theorem UnmarshalBinary_structEncode (r m : ServerDrives) (h : ∀ f, (r.get f).isText) :
    UnmarshalBinary m (structEncode r) = (r, none) := by
  unfold UnmarshalBinary ReadJSON
  simp only [trimNUL_structEncode, decode_structEncode r h]

theorem storeField_get_ne (f g : Field) (v : JSON) (d : decodeState) (h : g ≠ f) :
    (storeField f v d).res.get g = d.res.get g := by
  have hs : ∀ e, (d.saveError e).res = d.res := by
    intro e; unfold decodeState.saveError; split <;> rfl
  unfold storeField
  split
  · rfl
  · split
    · exact get_set_ne _ _ _ _ h
    · rw [hs]
  · split
    · rw [hs]
    · split
      · exact get_set_ne _ _ _ _ h
      · rw [hs]
  · split
    · split
      · exact get_set_ne _ _ _ _ h
      · rw [hs]
    · rw [hs]
  · rw [hs]
  · rw [hs]

theorem objectMember_get (d : decodeState) (m : Bytes × JSON) (g : Field)
    (h : selects m ≠ some g) : (objectMember d m).res.get g = d.res.get g := by
  have hs : ∀ e, (d.saveError e).res = d.res := by
    intro e; unfold decodeState.saveError; split <;> rfl
  unfold selects at h
  unfold objectMember
  rcases hu : unquoteBytes m.1 with _ | key
  · simp only [hs]
  · rw [hu] at h
    simp only [Option.some_bind] at h
    rcases hl : lookupField key with _ | f
    · simp only [hl]
    · rw [hl] at h
      simp only [hl]
      apply storeField_get_ne
      intro hgf
      exact h (by rw [hgf])

theorem object_get (ms : List (Bytes × JSON)) (g : Field) :
    ∀ d : decodeState, (∀ m ∈ ms, selects m ≠ some g) → (d.object ms).res.get g = d.res.get g := by
  induction ms with
  | nil => intro d _; rfl
  | cons m ms ih =>
    intro d h
    simp only [decodeState.object, List.foldl_cons] at ih ⊢
    rw [ih _ (fun x hx => h x (List.mem_cons_of_mem _ hx)),
      objectMember_get d m g (h m (List.mem_cons_self _ _))]

theorem value_get (j : JSON) (g : Field) (d : decodeState)
    (h : ∀ m ∈ j.members, selects m ≠ some g) : (d.value j).res.get g = d.res.get g := by
  have hs : ∀ e, (d.saveError e).res = d.res := by
    intro e; unfold decodeState.saveError; split <;> rfl
  cases j with
  | obj ms => exact object_get ms g d h
  | null => rfl
  | str lit =>
    simp only [decodeState.value]
    split <;> rw [hs]
  | bool b => simp only [decodeState.value, hs]
  | num lit => simp only [decodeState.value, hs]
  | arr xs => simp only [decodeState.value, hs]

theorem objectMember_skip (d : decodeState) (m : Bytes × JSON) (key : Bytes)
    (hu : unquoteBytes m.1 = some key) (hl : lookupField key = none) : objectMember d m = d := by
  simp only [objectMember, hu, hl]

theorem object_insert (ms1 ms2 : List (Bytes × JSON)) (m : Bytes × JSON) (key : Bytes)
    (hu : unquoteBytes m.1 = some key) (hl : lookupField key = none) (d : decodeState) :
    d.object (ms1 ++ m :: ms2) = d.object (ms1 ++ ms2) := by
  simp only [decodeState.object, List.foldl_append, List.foldl_cons,
    objectMember_skip _ m key hu hl]

/-! ## The claims -/

theorem isText_of_WF (r : ServerDrives) (hwf : r.WF) (hutf : r.ValidUTF8) :
    ∀ f, (r.get f).isText := by
  obtain ⟨h1, h2, h3, h4, h5⟩ := hutf
  intro f
  cases f
  · exact hwf.availableSpace
  · exact h1
  · exact h2
  · trivial
  · exact h3
  · trivial
  · exact h4
  · exact hwf.totalSpace
  · exact hwf.usedSpace
  · exact h5

theorem ReadJSON_of_UnmarshalBinary (b : Bytes) (r res : ServerDrives)
    (h : UnmarshalBinary r b = (res, none)) : ReadJSON b ServerDrives.zero = (res, none) := by
  rcases hR : ReadJSON b ServerDrives.zero with ⟨res2, _ | err⟩
  · simp only [UnmarshalBinary, hR, Prod.mk.injEq, and_true] at h
    rw [h]
  · simp [UnmarshalBinary, hR] at h

theorem UnmarshalBinary_of_ReadJSON (b : Bytes) (r res : ServerDrives)
    (h : ReadJSON b ServerDrives.zero = (res, none)) : UnmarshalBinary r b = (res, none) := by
  simp [UnmarshalBinary, h]

theorem zero_get (f : Field) : ServerDrives.zero.get f = f.kind.zero := by
  cases f <;> rfl

theorem ReadJSON_get_zero (b : Bytes) (res : ServerDrives) (j : JSON) (f : Field)
    (h : ReadJSON b ServerDrives.zero = (res, none)) (hj : checkValid (trimNUL b) = some j)
    (hm : ∀ m ∈ j.members, selects m ≠ some f) : res.get f = f.kind.zero := by
  unfold ReadJSON Unmarshal at h
  rw [hj] at h
  simp only [Prod.mk.injEq] at h
  rw [← h.1, value_get j f _ hm]
  exact zero_get f

/-- Claim C1: whenever UnmarshalBinary returns an error, the receiver after the
call is the receiver before the call, in all ten fields. The instances that
follow are the truncated input, a syntax error, and an input with a type
error, which ReadJSON has partly stored into its own record when it fails. -/
theorem UnmarshalBinary_error_keeps_receiver (r : ServerDrives) (b : Bytes)
    (h : (UnmarshalBinary r b).2 ≠ none) : (UnmarshalBinary r b).1 = r := by
  rcases hR : ReadJSON b ServerDrives.zero with ⟨res, _ | err⟩
  · simp [UnmarshalBinary, hR] at h
  · simp [UnmarshalBinary, hR]

theorem UnmarshalBinary_error_keeps_receiver_witness :
    (UnmarshalBinary { UUID := ascii "old", TotalSpace := 7, Healing := true }
        (ascii "\x7b\"uuid\":")).2 = some .SyntaxError ∧
    (UnmarshalBinary { UUID := ascii "old", TotalSpace := 7, Healing := true }
        (ascii "\x7b\"uuid\":")).1 = { UUID := ascii "old", TotalSpace := 7, Healing := true } ∧
    ReadJSON (ascii "\x7b\"state\":\"new\",\"uuid\":5\x7d") ServerDrives.zero
      = ({ State := ascii "new" }, some .UnmarshalTypeError) ∧
    (UnmarshalBinary { UUID := ascii "old" } (ascii "\x7b\"state\":\"new\",\"uuid\":5\x7d")).1
      = { UUID := ascii "old" } :=
  ⟨by decide, UnmarshalBinary_error_keeps_receiver _ _ (by decide), by rfl,
    UnmarshalBinary_error_keeps_receiver _ _ (by decide)⟩

/-- Claim C2: when UnmarshalBinary succeeds on `b`, the receiver after the call
is the same record whatever the receiver held before: it is what ReadJSON makes
of `b` starting from the zero record, and a field that no member of `b` sets is
zero afterwards. -/
theorem UnmarshalBinary_replaces_receiver (b : Bytes) (r1 r2 res : ServerDrives)
    (h : UnmarshalBinary r1 b = (res, none)) :
    UnmarshalBinary r2 b = (res, none) ∧ res = (ReadJSON b ServerDrives.zero).1 ∧
    ∀ j f, checkValid (trimNUL b) = some j → (∀ m ∈ j.members, selects m ≠ some f) →
      res.get f = f.kind.zero := by
  have hR := ReadJSON_of_UnmarshalBinary b r1 res h
  refine ⟨UnmarshalBinary_of_ReadJSON b r2 res hR, by rw [hR], ?_⟩
  intro j f hj hm
  exact ReadJSON_get_zero b res j f hR hj hm

theorem UnmarshalBinary_replaces_receiver_witness :
    UnmarshalBinary { State := ascii "old", UsedSpace := 5 } (ascii "\x7b\"uuid\":\"x\"\x7d")
      = ({ UUID := ascii "x" }, none) ∧
    UnmarshalBinary { Healing := true } (ascii "\x7b\"uuid\":\"x\"\x7d")
      = ({ UUID := ascii "x" }, none) ∧
    ({ UUID := ascii "x" } : ServerDrives).get .State = Field.State.kind.zero :=
  have h := UnmarshalBinary_replaces_receiver (ascii "\x7b\"uuid\":\"x\"\x7d")
    { State := ascii "old", UsedSpace := 5 } { Healing := true } { UUID := ascii "x" } (by rfl)
  ⟨by rfl, h.1, h.2.2 _ .State (by rfl) (by decide)⟩

/-- Claim C3, amended: for every record whose integers are int64 and whose
string fields hold valid UTF-8, MarshalBinary succeeds with some bytes, and
UnmarshalBinary of those bytes into any receiver succeeds and leaves the
receiver equal to the record. -/
theorem MarshalBinary_UnmarshalBinary_roundtrip (r m : ServerDrives) (hwf : r.WF)
    (hutf : r.ValidUTF8) :
    ∃ b, MarshalBinary (some r) = (some b, none) ∧ UnmarshalBinary m b = (r, none) :=
  ⟨structEncode r, rfl, UnmarshalBinary_structEncode r m (isText_of_WF r hwf hutf)⟩

theorem MarshalBinary_UnmarshalBinary_roundtrip_witness :
    ∃ b, MarshalBinary (some
        { DrivePath := [0x2F, 0xC3, 0xA9, 0x22, 0x0A], TotalSpace := -5, RootDisk := true })
        = (some b, none) ∧
      UnmarshalBinary { UUID := ascii "old" } b
        = ({ DrivePath := [0x2F, 0xC3, 0xA9, 0x22, 0x0A], TotalSpace := -5, RootDisk := true },
            none) :=
  MarshalBinary_UnmarshalBinary_roundtrip _ _
    ⟨by decide, by decide, by decide, by decide, by decide, by decide, by decide, by decide⟩
    ⟨by decide, by decide, by decide, by decide, by decide⟩

/-- Counterexample to claim C3 as stated: a record whose drive path is the
single byte 0xFF, which is not valid UTF-8, is encoded with the escape of
U+FFFD and comes back with the three bytes of U+FFFD as its drive path. -/
theorem roundtrip_fails_on_invalid_utf8 :
    MarshalBinary (some { DrivePath := [0xFF] })
      = (some (ascii "\x7b\"drivePath\":\"\\ufffd\"\x7d"), none) ∧
    UnmarshalBinary { DrivePath := [0xFF] } (ascii "\x7b\"drivePath\":\"\\ufffd\"\x7d")
      = ({ DrivePath := [0xEF, 0xBF, 0xBD] }, none) ∧
    ({ DrivePath := [0xEF, 0xBF, 0xBD] } : ServerDrives) ≠ { DrivePath := [0xFF] } :=
  ⟨by rfl, by rfl, by decide⟩

/-- Claim C4: for every record, every format registry and every context,
Validate and ContextValidate return no error and leave the record as it is. -/
theorem Validate_ContextValidate_succeed {Context Registry : Type} (r : ServerDrives)
    (ctx : Context) (formats : Registry) :
    Validate (some r) formats = (some r, none) ∧
    ContextValidate (some r) ctx formats = (some r, none) := ⟨rfl, rfl⟩

/-- Claim C5: MarshalBinary on the nil receiver returns the nil slice and no
error. -/
theorem MarshalBinary_nil : MarshalBinary none = (none, none) := rfl

/-- Claim C6, amended: for every record MarshalBinary returns a JSON object
that has the key of a field exactly when the field is not at its zero value
and has no other keys; the value under the key of a field is the value of the
field when that is an int64, a bool, or a string of valid UTF-8; the zero
record is written as the empty object. -/
theorem MarshalBinary_omits_zero_fields (r : ServerDrives) :
    ∃ b ms, MarshalBinary (some r) = (some b, none) ∧ checkValid b = some (.obj ms) ∧
      (∀ f, (∃ m ∈ ms, m.1 = f.name) ↔ isEmptyValue (r.get f) = false) ∧
      (∀ m ∈ ms, ∃ f, m.1 = f.name ∧ ((r.get f).isText → m.2.toValue = some (r.get f))) ∧
      (r = ServerDrives.zero → b = [0x7B, 0x7D]) := by
  refine ⟨structEncode r, membersOf r, rfl, checkValid_structEncode r, ?_, ?_, ?_⟩
  · intro f
    constructor
    · rintro ⟨m, hm, hmf⟩
      simp only [membersOf, List.mem_map] at hm
      obtain ⟨g, hg, rfl⟩ := hm
      have hgf : g = f := by
        simp only at hmf
        revert hmf
        cases g <;> cases f <;> decide
      subst hgf
      simpa [present] using (List.mem_filter.mp hg).2
    · intro hf
      refine ⟨(f.name, jsonOf (r.get f)), ?_, rfl⟩
      simp only [membersOf, List.mem_map]
      exact ⟨f, List.mem_filter.mpr ⟨mem_fields f, by simpa using hf⟩, rfl⟩
  · intro m hm
    simp only [membersOf, List.mem_map] at hm
    obtain ⟨g, _, rfl⟩ := hm
    exact ⟨g, rfl, toValue_jsonOf _⟩
  · intro hr
    subst hr
    rfl

theorem MarshalBinary_omits_zero_fields_witness :
    ∃ b ms, MarshalBinary (some { State := ascii "ok", UsedSpace := 3 }) = (some b, none) ∧
      checkValid b = some (.obj ms) ∧
      (∀ f, (∃ m ∈ ms, m.1 = f.name) ↔
        isEmptyValue (({ State := ascii "ok", UsedSpace := 3 } : ServerDrives).get f) = false) ∧
      (∀ m ∈ ms, ∃ f, m.1 = f.name ∧
        ((({ State := ascii "ok", UsedSpace := 3 } : ServerDrives).get f).isText →
          m.2.toValue = some (({ State := ascii "ok", UsedSpace := 3 } : ServerDrives).get f))) ∧
      (({ State := ascii "ok", UsedSpace := 3 } : ServerDrives) = ServerDrives.zero →
        b = [0x7B, 0x7D]) :=
  MarshalBinary_omits_zero_fields { State := ascii "ok", UsedSpace := 3 }

/-- Counterexample to claim C6 as stated: for a record whose model is the
single byte 0x80, which is not valid UTF-8, the value under the key model is
the string U+FFFD, not the value of the field. -/
theorem key_value_differs_on_invalid_utf8 :
    MarshalBinary (some { Model := [0x80] })
      = (some (ascii "\x7b\"model\":\"\\ufffd\"\x7d"), none) ∧
    checkValid (ascii "\x7b\"model\":\"\\ufffd\"\x7d")
      = some (.obj [(ascii "model", .str (ascii "\\ufffd"))]) ∧
    (JSON.str (ascii "\\ufffd")).toValue = some (.str [0xEF, 0xBF, 0xBD]) ∧
    some (Value.str [0xEF, 0xBF, 0xBD]) ≠ some (({ Model := [0x80] } : ServerDrives).get .Model) :=
  ⟨by rfl, by rfl, by rfl, by decide⟩

/-- Claim C7: for every receiver, UnmarshalBinary of the two bytes of the empty
object succeeds and leaves the receiver with all ten fields at their zero
value. -/
theorem UnmarshalBinary_empty_object (r : ServerDrives) :
    UnmarshalBinary r [0x7B, 0x7D] = (ServerDrives.zero, none) ∧
    ∀ f, ServerDrives.zero.get f = f.kind.zero :=
  ⟨rfl, zero_get⟩

theorem lookupField_eq_none_iff (key : Bytes) :
    lookupField key = none ↔ ∀ f : Field, foldName f.name ≠ foldName key := by
  unfold lookupField
  constructor
  · intro h f
    split at h
    · exact absurd h (by simp)
    · have h2 := List.find?_eq_none.mp h f (mem_fields f)
      simpa using h2
  · intro h
    have h1 : fields.find? (fun f => decide (f.name = key)) = none := by
      apply List.find?_eq_none.mpr
      intro f _
      have := h f
      simp only [decide_eq_true_eq]
      intro hf
      exact this (by rw [hf])
    rw [h1]
    simp only
    apply List.find?_eq_none.mpr
    intro f _
    simpa using h f

/-- Claim C8, amended: when the text `b` is accepted by the decoder as a JSON
object and the text `b2` is accepted by it as that object with one more member
(the scanner of the decoder refuses a text whose values are nested more than
maxNestingDepth deep, so the added value has to leave the text within that
limit), and the decoder matches the key of the added member to none of the
ten fields (it matches a key to a field name exactly or else without regard to
case), then UnmarshalBinary has the same outcome on `b2` as on `b`; and after
a successful call on `b` every field that no key of the object is matched to
is zero. -/
theorem UnmarshalBinary_ignores_unknown_key (r : ServerDrives) (b b2 : Bytes)
    (ms1 ms2 : List (Bytes × JSON)) (k : Bytes) (v : JSON)
    (hb : checkValid (trimNUL b) = some (.obj (ms1 ++ ms2)))
    (hb2 : checkValid (trimNUL b2) = some (.obj (ms1 ++ (k, v) :: ms2)))
    (hk : selects (k, v) = none) :
    UnmarshalBinary r b2 = UnmarshalBinary r b ∧
    ∀ res f, UnmarshalBinary r b = (res, none) → (∀ m ∈ ms1 ++ ms2, selects m ≠ some f) →
      res.get f = f.kind.zero := by
  obtain ⟨key, hkey⟩ := checkValid_key_unquotes _ _ hb2 (k, v) (by simp)
  have hl : lookupField key = none := by
    simpa [selects, hkey] using hk
  constructor
  · simp only [UnmarshalBinary, ReadJSON, Unmarshal, hb, hb2, decodeState.value]
    rw [object_insert ms1 ms2 (k, v) key hkey hl]
  · intro res f h hm
    exact ReadJSON_get_zero b res _ f (ReadJSON_of_UnmarshalBinary b r res h) hb hm

theorem UnmarshalBinary_ignores_unknown_key_witness :
    UnmarshalBinary { State := ascii "old" }
        (ascii "\x7b\"uuid\":\"a\",\"extra\":[1,\x7b\"uuid\":\"b\"\x7d],\"healing\":true\x7d")
      = UnmarshalBinary { State := ascii "old" } (ascii "\x7b\"uuid\":\"a\",\"healing\":true\x7d") ∧
    UnmarshalBinary { State := ascii "old" } (ascii "\x7b\"uuid\":\"a\",\"healing\":true\x7d")
      = ({ UUID := ascii "a", Healing := true }, none) :=
  ⟨(UnmarshalBinary_ignores_unknown_key { State := ascii "old" }
      (ascii "\x7b\"uuid\":\"a\",\"healing\":true\x7d")
      (ascii "\x7b\"uuid\":\"a\",\"extra\":[1,\x7b\"uuid\":\"b\"\x7d],\"healing\":true\x7d")
      [(ascii "uuid", .str (ascii "a"))] [(ascii "healing", .bool true)]
      (ascii "extra") (.arr [.num (ascii "1"), .obj [(ascii "uuid", .str (ascii "b"))]])
      (by rfl) (by rfl) (by rfl)).1, by rfl⟩

/-- Counterexample to claim C8 as stated: UUID in capitals is not one of the
ten mapped names, yet adding a member with that key to the empty object
changes the record that UnmarshalBinary yields: the decoder matches keys
without regard to case. -/
theorem unknown_key_in_other_case_is_stored :
    checkValid (ascii "\x7b\x7d") = some (.obj []) ∧
    checkValid (ascii "\x7b\"UUID\":\"x\"\x7d") = some (.obj [(ascii "UUID", .str (ascii "x"))]) ∧
    (∀ f : Field, f.name ≠ ascii "UUID") ∧
    UnmarshalBinary ServerDrives.zero (ascii "\x7b\x7d") = (ServerDrives.zero, none) ∧
    UnmarshalBinary ServerDrives.zero (ascii "\x7b\"UUID\":\"x\"\x7d")
      = ({ UUID := ascii "x" }, none) ∧
    ({ UUID := ascii "x" } : ServerDrives) ≠ ServerDrives.zero :=
  ⟨by rfl, by rfl, fun f => by cases f <;> decide, by rfl, by rfl, by decide⟩

theorem UnmarshalBinary_syntax_error (r : ServerDrives) (b : Bytes)
    (h : checkValid (trimNUL b) = none) : UnmarshalBinary r b = (r, some .SyntaxError) := by
  simp only [UnmarshalBinary, ReadJSON, Unmarshal, h]

theorem UnmarshalBinary_member_x (r : ServerDrives) (b : Bytes) (j : JSON)
    (h : checkValid (trimNUL b) = some (.obj [(ascii "x", j)])) :
    UnmarshalBinary r b = (ServerDrives.zero, none) := by
  simp only [UnmarshalBinary, ReadJSON, Unmarshal, h, decodeState.value,
    decodeState.object, List.foldl_cons, List.foldl_nil,
    objectMember_skip _ (ascii "x", j) (ascii "x") (by rfl) (by rfl)]

/-- The proviso of claim C8 on the extended text is needed. The key x is
matched to no field and the text of maxNestingDepth nested arrays is accepted
by the scanner on its own. As the value of the key x in an otherwise empty
object, one array less is accepted and UnmarshalBinary has the outcome it has
on the empty object; the maxNestingDepth arrays are refused, the object being
one more level, and UnmarshalBinary returns the SyntaxError. -/
theorem unknown_key_nested_too_deep_is_rejected :
    (∀ v : JSON, selects (ascii "x", v) = none) ∧
    (∃ j, checkValid (nested maxNestingDepth) = some j) ∧
    UnmarshalBinary ServerDrives.zero (ascii "\x7b\x7d") = (ServerDrives.zero, none) ∧
    UnmarshalBinary ServerDrives.zero
        (ascii "\x7b\"x\":" ++ nested (maxNestingDepth - 1) ++ ascii "\x7d")
      = (ServerDrives.zero, none) ∧
    UnmarshalBinary ServerDrives.zero
        (ascii "\x7b\"x\":" ++ nested maxNestingDepth ++ ascii "\x7d")
      = (ServerDrives.zero, some .SyntaxError) := by
  refine ⟨fun v => by rfl, checkValid_nested 9999 (by decide), by rfl, ?_, ?_⟩
  · obtain ⟨j, hj⟩ := checkValid_member_nested 9998 (by decide)
    exact UnmarshalBinary_member_x _ _ j ((trimNUL_member _).symm ▸ hj)
  · exact UnmarshalBinary_syntax_error _ _
      ((trimNUL_member _).symm ▸ checkValid_member_too_deep _)

/-- Claim C9, amended: MarshalBinary on a record returns what the function it
delegates to returns, the slice and the error as they are, so that an error of
swag.WriteJSON reaches the caller unchanged; and bytes that are not valid
UTF-8 in a string field do not keep the record from being encoded: for every
record the slice that MarshalBinary returns is a well-formed JSON object, the
one with the members of the non-empty fields. -/
theorem MarshalBinary_surfaces_WriteJSON
    (writeJSON : ServerDrives → Option Bytes × Option JSONError) (r : ServerDrives) :
    MarshalBinaryWith writeJSON (some r) = writeJSON r ∧
    (∀ e, (writeJSON r).2 = some e → (MarshalBinaryWith writeJSON (some r)).2 = some e) ∧
    MarshalBinary (some r) = WriteJSON r ∧
    ∃ b, (MarshalBinary (some r)).1 = some b ∧ checkValid b = some (.obj (membersOf r)) :=
  ⟨rfl, fun _ h => h, rfl, structEncode r, rfl, checkValid_structEncode r⟩

/-- Counterexample to claim C9 as stated: a record whose uuid holds the bytes
0xC3 0x28, which are not valid UTF-8, is encoded without an error; the invalid
byte is written as the escape of U+FFFD. -/
theorem MarshalBinary_succeeds_on_invalid_utf8 :
    Valid [0xC3, 0x28] = false ∧
    MarshalBinary (some { UUID := [0xC3, 0x28] })
      = (some (ascii "\x7b\"uuid\":\"\\ufffd(\"\x7d"), none) :=
  ⟨by rfl, by rfl⟩

set_option maxRecDepth 100000 in
/-- Claim C10: UnmarshalBinary of the scenario input succeeds and yields the
record with the drive path, total space, used space and state of the input,
healing false and every other field zero; MarshalBinary of that record yields
the JSON object with exactly the four keys drivePath, state, totalSpace and
usedSpace and those values, the key healing being left out. -/
theorem scenario_decode_encode (r : ServerDrives) :
    UnmarshalBinary r (ascii "\x7b\"drivePath\":\"/mnt/disk1\",\"totalSpace\":1000000,\"usedSpace\":250000,\"state\":\"ok\",\"healing\":false\x7d")
      = ({ DrivePath := ascii "/mnt/disk1", TotalSpace := 1000000, UsedSpace := 250000,
           State := ascii "ok", Healing := false }, none) ∧
    MarshalBinary (some
        { DrivePath := ascii "/mnt/disk1", TotalSpace := 1000000, UsedSpace := 250000,
          State := ascii "ok", Healing := false })
      = (some (ascii "\x7b\"drivePath\":\"/mnt/disk1\",\"state\":\"ok\",\"totalSpace\":1000000,\"usedSpace\":250000\x7d"), none) ∧
    checkValid (ascii "\x7b\"drivePath\":\"/mnt/disk1\",\"state\":\"ok\",\"totalSpace\":1000000,\"usedSpace\":250000\x7d")
      = some (.obj [(ascii "drivePath", .str (ascii "/mnt/disk1")), (ascii "state", .str (ascii "ok")),
          (ascii "totalSpace", .num (ascii "1000000")), (ascii "usedSpace", .num (ascii "250000"))]) :=
  ⟨by rfl, by rfl, by rfl⟩

end Models
